import Mathlib

/-!
Verification of the text-chunking and TTS-pipeline logic of the mind_sonic
repository. The Python sources embedded here are:
  * `src/src/mind_sonic/tools/openai_tts_tool.py`
    (`OpenAITTSTool._chunk_text`, `_select_voice_for_language`, `_run`,
    `_process_chunks`),
  * `src/bin/convert_script_to_audio.py` (`split_text`,
    `determine_voice_for_language`),
  * `src/src/mind_sonic/tools/podcast_audio_generator_tool.py`
    (`PodcastAudioGeneratorTool._run`).
Python strings are modelled as `List Char`; Python `str.split`, `str.replace`
with the one- and two-character separators actually used by the code are
modelled by `splitOnChar`, `splitOn2` and `replace2` below.
-/

namespace MindSonic

/-- Python `s.split(sep)` for a single-character separator `c`. -/
def splitOnChar (c : Char) : List Char → List (List Char)
  | [] => [[]]
  | x :: xs =>
    match splitOnChar c xs with
    | [] => [[]]
    | h :: t => if x = c then [] :: h :: t else (x :: h) :: t

/-- Python `s.split(sep)` for a two-character separator `[a, b]`:
left-to-right scan over non-overlapping occurrences. -/
def splitOn2 (a b : Char) : List Char → List (List Char)
  | [] => [[]]
  | [x] => [[x]]
  | x :: y :: rest =>
    if x = a ∧ y = b then
      [] :: splitOn2 a b rest
    else
      match splitOn2 a b (y :: rest) with
      | [] => [[x]]
      | h :: t => (x :: h) :: t

/-- Python `s.replace(old, new)` for two-character `old = [a, b]` and
`new = [r1, r2]`: left-to-right, non-overlapping. -/
def replace2 (a b r1 r2 : Char) : List Char → List Char
  | [] => []
  | [x] => [x]
  | x :: y :: rest =>
    if x = a ∧ y = b then r1 :: r2 :: replace2 a b r1 r2 rest
    else x :: replace2 a b r1 r2 (y :: rest)

/-- Join a list of pieces with a separator (inverse of the split functions). -/
def joinSep (sep : List Char) : List (List Char) → List Char
  | [] => []
  | [x] => x
  | x :: y :: rest => x ++ sep ++ joinSep sep (y :: rest)

/-! ### `OpenAITTSTool._chunk_text` (openai_tts_tool.py, lines 190-251)

The Python loop state is the pair `(chunks, current_chunk)`; the sentence
loop and paragraph loop become folds over the split pieces. -/

/-- One iteration of the sentence loop of `_chunk_text`
(openai_tts_tool.py lines 227-240). -/
def tSentStep (maxc : Nat) (st : List (List Char) × List Char) (s : List Char) :
    List (List Char) × List Char :=
  if st.2.length + s.length + 2 ≤ maxc then
    (st.1, (if st.2 ≠ [] then st.2 ++ ['.', ' '] else st.2) ++ s)
  else
    let c1 := if st.2 ≠ [] then st.1 ++ [st.2 ++ ['.']] else st.1
    if maxc < s.length then (c1 ++ [s ++ ['.']], [])
    else (c1, s)

/-- The sentence branch of `_chunk_text` (lines 225-243): split the oversized
paragraph on `". "`, fold with an empty buffer, flush the trailing buffer
with a `'.'` appended; `current_chunk` is reset to `""` afterwards. -/
def tSentLoop (maxc : Nat) (chunks : List (List Char)) (p : List Char) :
    List (List Char) :=
  let st := (splitOn2 '.' ' ' p).foldl (tSentStep maxc) (chunks, [])
  if st.2 ≠ [] then st.1 ++ [st.2 ++ ['.']] else st.1

/-- One iteration of the paragraph loop of `_chunk_text` (lines 215-245). -/
def tParaStep (maxc : Nat) (st : List (List Char) × List Char) (p : List Char) :
    List (List Char) × List Char :=
  if st.2.length + p.length + 2 ≤ maxc then
    (st.1, (if st.2 ≠ [] then st.2 ++ ['\n', '\n'] else st.2) ++ p)
  else
    let c1 := if st.2 ≠ [] then st.1 ++ [st.2] else st.1
    if maxc < p.length then (tSentLoop maxc c1 p, [])
    else (c1, p)

/-- `OpenAITTSTool._chunk_text(text, max_chars)` (openai_tts_tool.py,
lines 190-251). -/
def chunk_text (text : List Char) (maxc : Nat) : List (List Char) :=
  if text.length ≤ maxc then [text]
  else
    let st := (splitOn2 '\n' '\n' text).foldl (tParaStep maxc) ([], [])
    if st.2 ≠ [] then st.1 ++ [st.2] else st.1

/-! ### `split_text` (bin/convert_script_to_audio.py, lines 17-90) -/

/-- The sentence list of a paragraph in `split_text` (lines 48-53):
`paragraph.replace(". ", ".|").replace("! ", "!|").replace("? ", "?|").split("|")`. -/
def sentsOf (p : List Char) : List (List Char) :=
  splitOnChar '|'
    (replace2 '?' ' ' '?' '|'
      (replace2 '!' ' ' '!' '|'
        (replace2 '.' ' ' '.' '|' p)))

/-- One iteration of the word loop of `split_text` (lines 66-73). -/
def bWordStep (maxl : Nat) (st : List (List Char) × List Char) (w : List Char) :
    List (List Char) × List Char :=
  if maxl < st.2.length + w.length + 1 then
    (st.1 ++ [st.2], w ++ [' '])
  else
    (st.1, st.2 ++ w ++ [' '])

/-- One iteration of the sentence loop of `split_text` (lines 55-77). -/
def bSentStep (maxl : Nat) (st : List (List Char) × List Char) (s : List Char) :
    List (List Char) × List Char :=
  if maxl < st.2.length + s.length + 1 then
    if st.2 ≠ [] then (st.1 ++ [st.2], s)
    else if maxl < s.length then
      (splitOnChar ' ' s).foldl (bWordStep maxl) st
    else (st.1 ++ [s], st.2)
  else
    (st.1, st.2 ++ s ++ [' '])

/-- One iteration of the paragraph loop of `split_text` (lines 38-84). -/
def bParaStep (maxl : Nat) (st : List (List Char) × List Char) (p : List Char) :
    List (List Char) × List Char :=
  if maxl < st.2.length + p.length + 2 then
    let st1 := if st.2 ≠ [] then (st.1 ++ [st.2], ([] : List Char)) else st
    if maxl < p.length then (sentsOf p).foldl (bSentStep maxl) st1
    else (st1.1, p)
  else
    (st.1, (if st.2 ≠ [] then st.2 ++ ['\n', '\n'] else st.2) ++ p)

/-- `split_text(text, max_length)` (bin/convert_script_to_audio.py,
lines 17-90). -/
def split_text (text : List Char) (maxl : Nat) : List (List Char) :=
  if text.length ≤ maxl then [text]
  else
    let st := (splitOn2 '\n' '\n' text).foldl (bParaStep maxl) ([], [])
    if st.2 ≠ [] then st.1 ++ [st.2] else st.1

/-! ### Basic lemmas about the string primitives -/

theorem splitOnChar_ne_nil (c : Char) (l : List Char) : splitOnChar c l ≠ [] := by
  cases l with
  | nil => simp [splitOnChar]
  | cons x xs =>
    simp only [splitOnChar]
    cases h : splitOnChar c xs with
    | nil => simp
    | cons h t =>
      by_cases hx : x = c <;> simp [hx]

theorem splitOn2_ne_nil (a b : Char) (l : List Char) : splitOn2 a b l ≠ [] := by
  match l with
  | [] => simp [splitOn2]
  | [x] => simp [splitOn2]
  | x :: y :: rest =>
    simp only [splitOn2]
    by_cases hxy : x = a ∧ y = b
    · simp [hxy]
    · simp only [if_neg hxy]
      cases h : splitOn2 a b (y :: rest) with
      | nil => simp
      | cons h t => simp

theorem splitOnChar_of_not_mem (c : Char) (l : List Char)
    (h : ∀ x ∈ l, x ≠ c) : splitOnChar c l = [l] := by
  induction l with
  | nil => simp [splitOnChar]
  | cons x xs ih =>
    have hx : x ≠ c := h x (by simp)
    have hxs : ∀ z ∈ xs, z ≠ c := fun z hz => h z (by simp [hz])
    simp [splitOnChar, ih hxs, hx]

theorem splitOn2_of_not_mem (a b : Char) (l : List Char)
    (h : ∀ x ∈ l, x ≠ a) : splitOn2 a b l = [l] := by
  induction l with
  | nil => simp [splitOn2]
  | cons x xs ih =>
    cases xs with
    | nil => simp [splitOn2]
    | cons y rest =>
      have hx : x ≠ a := h x (by simp)
      have hys : ∀ z ∈ y :: rest, z ≠ a := fun z hz => h z (by simp [hz])
      have hcond : ¬(x = a ∧ y = b) := fun hc => hx hc.1
      simp [splitOn2, hcond, ih hys]

theorem replace2_of_not_mem (a b r1 r2 : Char) (l : List Char)
    (h : ∀ x ∈ l, x ≠ a) : replace2 a b r1 r2 l = l := by
  induction l with
  | nil => simp [replace2]
  | cons x xs ih =>
    cases xs with
    | nil => simp [replace2]
    | cons y rest =>
      have hx : x ≠ a := h x (by simp)
      have hys : ∀ z ∈ y :: rest, z ≠ a := fun z hz => h z (by simp [hz])
      have hcond : ¬(x = a ∧ y = b) := fun hc => hx hc.1
      simp [replace2, hcond, ih hys]

theorem splitOn2_append_sep (a b : Char) (xs ys : List Char)
    (h : ∀ x ∈ xs, x ≠ a) :
    splitOn2 a b (xs ++ a :: b :: ys) = xs :: splitOn2 a b ys := by
  induction xs with
  | nil => simp [splitOn2]
  | cons x rest ih =>
    have hx : x ≠ a := h x (by simp)
    have hrest : ∀ z ∈ rest, z ≠ a := fun z hz => h z (by simp [hz])
    cases rest with
    | nil =>
      have hcond : ¬(x = a ∧ a = b) := fun hc => hx hc.1
      simp [splitOn2, hcond, ih hrest]
    | cons y rest2 =>
      have hcond : ¬(x = a ∧ y = b) := fun hc => hx hc.1
      have htail : splitOn2 a b (y :: (rest2 ++ a :: b :: ys)) =
          (y :: rest2) :: splitOn2 a b ys := by
        have := ih hrest
        simpa using this
      simp [splitOn2, hcond, htail]

theorem joinSep_cons_cons (sep x y : List Char) (rest : List (List Char)) :
    joinSep sep (x :: y :: rest) = x ++ sep ++ joinSep sep (y :: rest) := rfl

theorem joinSep_splitOnChar (c : Char) (l : List Char) :
    joinSep [c] (splitOnChar c l) = l := by
  induction l with
  | nil => simp [splitOnChar, joinSep]
  | cons x xs ih =>
    simp only [splitOnChar]
    cases h : splitOnChar c xs with
    | nil => exact absurd h (splitOnChar_ne_nil c xs)
    | cons hd tl =>
      rw [h] at ih
      by_cases hx : x = c
      · subst hx
        cases tl with
        | nil => simp_all [joinSep]
        | cons t1 t2 => simp_all [joinSep]
      · cases tl with
        | nil => simp_all [joinSep]
        | cons t1 t2 => simp_all [joinSep]

theorem joinSep_splitOn2 (a b : Char) (l : List Char) :
    joinSep [a, b] (splitOn2 a b l) = l := by
  induction l using splitOn2.induct a b with
  | case1 => simp [splitOn2, joinSep]
  | case2 x => simp [splitOn2, joinSep]
  | case3 x y rest hxy ih =>
    obtain ⟨hx, hy⟩ := hxy
    simp only [splitOn2, if_pos (show x = a ∧ y = b from ⟨hx, hy⟩)]
    cases h : splitOn2 a b rest with
    | nil => exact absurd h (splitOn2_ne_nil a b rest)
    | cons hd tl =>
      rw [h] at ih
      simp [joinSep, ih]
      exact ⟨hx.symm, hy.symm⟩
  | case4 x y rest hxy hnil ih =>
    exact absurd hnil (splitOn2_ne_nil a b _)
  | case5 x y rest hxy hd tl hsp ih =>
    simp only [splitOn2, if_neg hxy, hsp]
    rw [hsp] at ih
    cases tl with
    | nil => simp_all [joinSep]
    | cons t1 t2 => simp_all [joinSep]

/-! ### Generic fold helpers -/

theorem foldl_inv {α σ : Type} (step : σ → α → σ) (P : σ → Prop) (Q : α → Prop)
    (hstep : ∀ st x, P st → Q x → P (step st x)) :
    ∀ (l : List α) (st : σ), P st → (∀ x ∈ l, Q x) → P (l.foldl step st)
  | [], _, hP, _ => hP
  | x :: xs, st, hP, hQ =>
    foldl_inv step P Q hstep xs (step st x)
      (hstep st x hP (hQ x (by simp)))
      (fun z hz => hQ z (by simp [hz]))

theorem foldl_trace {α σ : Type} (step : σ → α → σ) (F : σ → List Char)
    (g : α → List Char)
    (hstep : ∀ st x, F (step st x) = F st ++ g x) :
    ∀ (l : List α) (st : σ), F (l.foldl step st) = F st ++ (l.map g).flatten := by
  intro l
  induction l with
  | nil => intro st; simp
  | cons x xs ih =>
    intro st
    simp only [List.foldl_cons, List.map_cons, List.flatten, ih (step st x),
      hstep st x, List.append_assoc]

/-! ### Concrete inputs used by the claim theorems -/

/-- A 13-character text with spaces but no sentence terminator and no
paragraph break. -/
def spacedText : List Char := "aaa bbb ccc d".data

/-- The single chunk `_chunk_text` produces for `spacedText` at limit 10. -/
def spacedTextChunk : List Char := "aaa bbb ccc d.".data

/-- An 8-character text whose only word longer than the limit 5 comes first. -/
def wordText : List Char := "aaaaaa b".data

/-- A text consisting solely of repeated sentence separators. -/
def sepOnlyText : List Char := ". . ".data

/-- A text consisting solely of two paragraph separators. -/
def blankParasText : List Char := "\n\n\n\n".data

/-- A short two-word text without sentence terminators. -/
def c6Text : List Char := "abcd efg".data

/-- The short greeting of the spec scenario 1. -/
def helloText : List Char := "Hello world.".data

/-! ### Claim C2 -/

/-- C2: for every text whose length is at most `maxLength` (including the
empty string), both split operations (`_chunk_text` of the tool and
`split_text` of the conversion script) return exactly one segment, equal to
the input text. -/
theorem c2_short_text_single_segment (text : List Char) (maxLength : Nat)
    (h : text.length ≤ maxLength) :
    chunk_text text maxLength = [text] ∧ split_text text maxLength = [text] := by
  exact ⟨by simp [chunk_text, h], by simp [split_text, h]⟩

/-- Witness for C2 at the concrete input of spec scenario 1. -/
theorem c2_short_text_single_segment_witness :
    helloText.length ≤ 4000 ∧
      (chunk_text helloText 4000 = [helloText] ∧
        split_text helloText 4000 = [helloText]) :=
  ⟨by decide, c2_short_text_single_segment helloText 4000 (by decide)⟩

/-! ### Claim C3: counterexample -/

/-- C3 counterexample: at limit 10, `_chunk_text` of `spacedText` emits the
single oversized segment `"aaa bbb ccc d."` of length 14 > 10, which contains
spaces (word-split boundaries), so it is not a single indivisible word, and it
is not the input emitted whole (a period was appended). -/
theorem c3_counterexample :
    chunk_text spacedText 10 = [spacedTextChunk] ∧
      10 < spacedTextChunk.length ∧
      ' ' ∈ spacedTextChunk ∧
      spacedTextChunk ≠ spacedText := by
  decide

/-! ### Claim C5: counterexample -/

/-- C5 counterexample: at limit 5, `split_text` of `"aaaaaa b"` returns the
empty string as its first segment (the word-tier flush at line 70 of
convert_script_to_audio.py appends `current_chunk` even when it is empty). -/
theorem c5_counterexample :
    split_text wordText 5 = [[], "aaaaaa ".data, "b ".data] ∧
      [] ∈ split_text wordText 5 := by
  decide

/-! ### Claim C6: counterexample -/

/-- C6 counterexample: `_chunk_text` adds a period character that is not in
the input: the input `"abcd efg"` contains no `'.'`, yet the concatenation of
the returned segments contains one, so reassembly does not reproduce the text
up to whitespace changes only. -/
theorem c6_counterexample :
    '.' ∉ c6Text ∧ '.' ∈ (chunk_text c6Text 3).flatten := by
  decide

/-! ### Claim C3: segment-length invariants for `_chunk_text`

The buffer of `_chunk_text` never exceeds `max_chars`, but flushed buffers
get a `'.'` appended (length up to `max_chars + 1`), and a single sentence
longer than `max_chars` is emitted whole with a `'.'` appended. -/

/-- A sentence piece of `_chunk_text`: an element of the `". "`-split of a
paragraph of `text` that is longer than the limit. -/
def tSentProv (maxc : Nat) (text s : List Char) : Prop :=
  ∃ p ∈ splitOn2 '\n' '\n' text, maxc < p.length ∧ s ∈ splitOn2 '.' ' ' p

/-- A segment emitted by `_chunk_text` is within `maxc + 1` characters, or is
an oversized sentence emitted whole with a `'.'` appended. -/
def tSegOK (maxc : Nat) (text c : List Char) : Prop :=
  c.length ≤ maxc + 1 ∨
    ∃ s, tSentProv maxc text s ∧ maxc < s.length ∧ c = s ++ ['.']

/-- Loop invariant of `_chunk_text`: all flushed chunks are `tSegOK` and the
running buffer stays within the limit. -/
def tInv (maxc : Nat) (text : List Char) (st : List (List Char) × List Char) :
    Prop :=
  (∀ c ∈ st.1, tSegOK maxc text c) ∧ st.2.length ≤ maxc

theorem tInv_mk (maxc : Nat) (text : List Char) (chunks : List (List Char))
    (cc : List Char) (h1 : ∀ c ∈ chunks, tSegOK maxc text c)
    (h2 : cc.length ≤ maxc) : tInv maxc text (chunks, cc) :=
  ⟨h1, h2⟩

theorem mem_append_one {α : Type} {c x : α} {l : List α}
    (h : c ∈ l ++ [x]) : c ∈ l ∨ c = x := by
  simpa using List.mem_append.1 h

theorem tSegOK_append_dot (maxc : Nat) (text cc : List Char)
    (hcc : cc.length ≤ maxc) : tSegOK maxc text (cc ++ ['.']) :=
  Or.inl (by simp; omega)

theorem tSentStep_inv (maxc : Nat) (text : List Char)
    (chunks : List (List Char)) (cc : List Char) (s : List Char)
    (hst : tInv maxc text (chunks, cc)) (hs : tSentProv maxc text s) :
    tInv maxc text (tSentStep maxc (chunks, cc) s) := by
  obtain ⟨hchunks, hcc⟩ := hst
  replace hchunks : ∀ c ∈ chunks, tSegOK maxc text c := hchunks
  replace hcc : cc.length ≤ maxc := hcc
  by_cases hfit : cc.length + s.length + 2 ≤ maxc
  · have heq : tSentStep maxc (chunks, cc) s =
        (chunks, (if cc ≠ [] then cc ++ ['.', ' '] else cc) ++ s) := by
      simp [tSentStep, hfit]
    rw [heq]
    refine tInv_mk maxc text _ _ hchunks ?_
    by_cases hne : cc = [] <;> simp [hne] <;> omega
  · by_cases hbig : maxc < s.length
    · by_cases hne : cc = []
      · have hfit2 : ¬(s.length + 2 ≤ maxc) := by
          rw [hne] at hfit
          simpa using hfit
        have heq : tSentStep maxc (chunks, cc) s =
            (chunks ++ [s ++ ['.']], []) := by
          simp [tSentStep, hne, hfit2, hbig]
        rw [heq]
        refine tInv_mk maxc text _ _ ?_ (by simp)
        intro c hc
        rcases mem_append_one hc with h1 | h2
        · exact hchunks c h1
        · exact h2 ▸ Or.inr ⟨s, hs, hbig, rfl⟩
      · have heq : tSentStep maxc (chunks, cc) s =
            ((chunks ++ [cc ++ ['.']]) ++ [s ++ ['.']], []) := by
          simp [tSentStep, hfit, hbig, hne]
        rw [heq]
        refine tInv_mk maxc text _ _ ?_ (by simp)
        intro c hc
        rcases mem_append_one hc with h1 | h2
        · rcases mem_append_one h1 with h3 | h4
          · exact hchunks c h3
          · exact h4 ▸ tSegOK_append_dot maxc text cc hcc
        · exact h2 ▸ Or.inr ⟨s, hs, hbig, rfl⟩
    · by_cases hne : cc = []
      · have hfit2 : ¬(s.length + 2 ≤ maxc) := by
          rw [hne] at hfit
          simpa using hfit
        have heq : tSentStep maxc (chunks, cc) s = (chunks, s) := by
          simp [tSentStep, hne, hfit2, hbig]
        rw [heq]
        exact tInv_mk maxc text _ _ hchunks (by omega)
      · have heq : tSentStep maxc (chunks, cc) s =
            (chunks ++ [cc ++ ['.']], s) := by
          simp [tSentStep, hfit, hbig, hne]
        rw [heq]
        refine tInv_mk maxc text _ _ ?_ (by omega)
        intro c hc
        rcases mem_append_one hc with h1 | h2
        · exact hchunks c h1
        · exact h2 ▸ tSegOK_append_dot maxc text cc hcc

theorem tSentLoop_inv (maxc : Nat) (text : List Char)
    (chunks : List (List Char)) (p : List Char)
    (hchunks : ∀ c ∈ chunks, tSegOK maxc text c)
    (hp : p ∈ splitOn2 '\n' '\n' text) (hplen : maxc < p.length) :
    ∀ c ∈ tSentLoop maxc chunks p, tSegOK maxc text c := by
  have hfold : tInv maxc text
      ((splitOn2 '.' ' ' p).foldl (tSentStep maxc) (chunks, [])) := by
    refine foldl_inv (tSentStep maxc) (tInv maxc text)
      (fun s => tSentProv maxc text s) ?_ _ _
      (tInv_mk maxc text chunks [] hchunks (by simp)) ?_
    · intro st s hst hq
      obtain ⟨cl, cb⟩ := st
      exact tSentStep_inv maxc text cl cb s hst hq
    · intro s hsmem
      exact ⟨p, hp, hplen, hsmem⟩
  obtain ⟨h1, h2⟩ := hfold
  unfold tSentLoop
  set st := (splitOn2 '.' ' ' p).foldl (tSentStep maxc) (chunks, []) with hstdef
  by_cases hne : st.2 = []
  · simpa [hne] using h1
  · rw [if_pos (by simp [hne])]
    intro c hc
    rcases mem_append_one hc with ha | hb
    · exact h1 c ha
    · exact hb ▸ tSegOK_append_dot maxc text st.2 h2

theorem tParaStep_inv (maxc : Nat) (text : List Char)
    (chunks : List (List Char)) (cc : List Char) (p : List Char)
    (hst : tInv maxc text (chunks, cc)) (hp : p ∈ splitOn2 '\n' '\n' text) :
    tInv maxc text (tParaStep maxc (chunks, cc) p) := by
  obtain ⟨hchunks, hcc⟩ := hst
  replace hchunks : ∀ c ∈ chunks, tSegOK maxc text c := hchunks
  replace hcc : cc.length ≤ maxc := hcc
  by_cases hfit : cc.length + p.length + 2 ≤ maxc
  · have heq : tParaStep maxc (chunks, cc) p =
        (chunks, (if cc ≠ [] then cc ++ ['\n', '\n'] else cc) ++ p) := by
      simp [tParaStep, hfit]
    rw [heq]
    refine tInv_mk maxc text _ _ hchunks ?_
    by_cases hne : cc = [] <;> simp [hne] <;> omega
  · have hflush : ∀ c ∈ (if cc ≠ [] then chunks ++ [cc] else chunks),
        tSegOK maxc text c := by
      by_cases hne : cc = []
      · simpa [hne] using hchunks
      · rw [if_pos (by simp [hne])]
        intro c hc
        rcases mem_append_one hc with h1 | h2
        · exact hchunks c h1
        · exact h2 ▸ Or.inl (by omega)
    by_cases hbig : maxc < p.length
    · have heq : tParaStep maxc (chunks, cc) p =
          (tSentLoop maxc (if cc ≠ [] then chunks ++ [cc] else chunks) p,
            []) := by
        simp [tParaStep, hfit, hbig]
      rw [heq]
      exact tInv_mk maxc text _ _
        (tSentLoop_inv maxc text _ p hflush hp hbig) (by simp)
    · have heq : tParaStep maxc (chunks, cc) p =
          (if cc ≠ [] then chunks ++ [cc] else chunks, p) := by
        simp [tParaStep, hfit, hbig]
      rw [heq]
      exact tInv_mk maxc text _ _ hflush (by omega)

/-- Every segment of `_chunk_text` satisfies the amended length bound. -/
theorem chunk_text_segOK (text : List Char) (maxc : Nat) :
    ∀ c ∈ chunk_text text maxc, tSegOK maxc text c := by
  unfold chunk_text
  by_cases hshort : text.length ≤ maxc
  · rw [if_pos hshort]
    intro c hc
    have hce : c = text := by simpa using hc
    subst hce
    exact Or.inl (by omega)
  · rw [if_neg hshort]
    have hfold : tInv maxc text
        ((splitOn2 '\n' '\n' text).foldl (tParaStep maxc) ([], [])) := by
      refine foldl_inv (tParaStep maxc) (tInv maxc text)
        (fun p => p ∈ splitOn2 '\n' '\n' text) ?_ _ _
        (tInv_mk maxc text [] [] (by simp) (by simp)) (fun p hp => hp)
      intro st p hst hq
      obtain ⟨cl, cb⟩ := st
      exact tParaStep_inv maxc text cl cb p hst hq
    obtain ⟨h1, h2⟩ := hfold
    set st := (splitOn2 '\n' '\n' text).foldl (tParaStep maxc) ([], [])
    by_cases hne : st.2 = []
    · simpa [hne] using h1
    · rw [if_pos (by simp [hne])]
      intro c hc
      rcases mem_append_one hc with ha | hb
      · exact h1 c ha
      · exact hb ▸ Or.inl (by omega)

/-! ### Claim C3: segment-length invariants for `split_text`

In `split_text` the buffer can itself become oversized: line 61 of
convert_script_to_audio.py assigns an oversized sentence to the buffer
without word-splitting it, and line 71 assigns `word + " "`. Such a buffer
is always flushed unchanged before anything is appended to it. -/

/-- A sentence piece of `split_text`: an element of the
replace-and-split-on-`'|'` decomposition of an oversized paragraph. -/
def bSentProv (maxl : Nat) (text s : List Char) : Prop :=
  ∃ p ∈ splitOn2 '\n' '\n' text, maxl < p.length ∧ s ∈ sentsOf p

/-- A word piece of `split_text`: an element of the space-split of an
oversized sentence. -/
def bWordProv (maxl : Nat) (text w : List Char) : Prop :=
  ∃ s, bSentProv maxl text s ∧ maxl < s.length ∧ w ∈ splitOnChar ' ' s

/-- A segment emitted by `split_text` (the running buffer satisfies the same
property): within the limit, or an oversized sentence emitted verbatim, or a
word `w` with `len(w) + 1 > max_length` emitted as `w ++ " "`. -/
def bSegOK (maxl : Nat) (text c : List Char) : Prop :=
  c.length ≤ maxl ∨
    (∃ s, bSentProv maxl text s ∧ maxl < s.length ∧ c = s) ∨
    (∃ w, bWordProv maxl text w ∧ maxl < w.length + 1 ∧ c = w ++ [' '])

/-- Loop invariant of `split_text`. -/
def bInv (maxl : Nat) (text : List Char) (st : List (List Char) × List Char) :
    Prop :=
  (∀ c ∈ st.1, bSegOK maxl text c) ∧ bSegOK maxl text st.2

theorem bInv_mk (maxl : Nat) (text : List Char) (chunks : List (List Char))
    (cc : List Char) (h1 : ∀ c ∈ chunks, bSegOK maxl text c)
    (h2 : bSegOK maxl text cc) : bInv maxl text (chunks, cc) :=
  ⟨h1, h2⟩

theorem bWordStep_inv (maxl : Nat) (text : List Char)
    (chunks : List (List Char)) (cc : List Char) (w : List Char)
    (hst : bInv maxl text (chunks, cc)) (hw : bWordProv maxl text w) :
    bInv maxl text (bWordStep maxl (chunks, cc) w) := by
  obtain ⟨hchunks, hcc⟩ := hst
  replace hchunks : ∀ c ∈ chunks, bSegOK maxl text c := hchunks
  replace hcc : bSegOK maxl text cc := hcc
  by_cases hov : maxl < cc.length + w.length + 1
  · have heq : bWordStep maxl (chunks, cc) w =
        (chunks ++ [cc], w ++ [' ']) := by
      simp [bWordStep, hov]
    rw [heq]
    refine bInv_mk maxl text _ _ ?_ ?_
    · intro c hc
      rcases mem_append_one hc with h1 | h2
      · exact hchunks c h1
      · exact h2 ▸ hcc
    · by_cases hwbig : maxl < w.length + 1
      · exact Or.inr (Or.inr ⟨w, hw, hwbig, rfl⟩)
      · exact Or.inl (by simp; omega)
  · have heq : bWordStep maxl (chunks, cc) w =
        (chunks, cc ++ w ++ [' ']) := by
      simp [bWordStep, hov]
    rw [heq]
    exact bInv_mk maxl text _ _ hchunks (Or.inl (by simp; omega))

theorem bSentStep_inv (maxl : Nat) (text : List Char)
    (chunks : List (List Char)) (cc : List Char) (s : List Char)
    (hst : bInv maxl text (chunks, cc)) (hs : bSentProv maxl text s) :
    bInv maxl text (bSentStep maxl (chunks, cc) s) := by
  obtain ⟨hchunks, hcc⟩ := hst
  replace hchunks : ∀ c ∈ chunks, bSegOK maxl text c := hchunks
  replace hcc : bSegOK maxl text cc := hcc
  by_cases hov : maxl < cc.length + s.length + 1
  · by_cases hne : cc = []
    · by_cases hbig : maxl < s.length
      · have heq : bSentStep maxl (chunks, cc) s =
            (splitOnChar ' ' s).foldl (bWordStep maxl) (chunks, cc) := by
          have hov2 : maxl < cc.length + s.length + 1 := hov
          rw [hne] at hov2
          simp only [List.length_nil, Nat.zero_add] at hov2
          simp [bSentStep, hne, hov2, hbig]
        rw [heq]
        refine foldl_inv (bWordStep maxl) (bInv maxl text)
          (fun w => bWordProv maxl text w) ?_ _ _
          (bInv_mk maxl text chunks cc hchunks hcc) ?_
        · intro st w hstw hqw
          obtain ⟨cl, cb⟩ := st
          exact bWordStep_inv maxl text cl cb w hstw hqw
        · intro w hwmem
          exact ⟨s, hs, hbig, hwmem⟩
      · have hov2 : maxl < s.length + 1 := by
          rw [hne] at hov
          simpa using hov
        have heq : bSentStep maxl (chunks, cc) s =
            (chunks ++ [s], cc) := by
          simp [bSentStep, hne, hov2, hbig]
        rw [heq]
        refine bInv_mk maxl text _ _ ?_ hcc
        intro c hc
        rcases mem_append_one hc with h1 | h2
        · exact hchunks c h1
        · exact h2 ▸ Or.inl (by omega)
    · have heq : bSentStep maxl (chunks, cc) s = (chunks ++ [cc], s) := by
        simp [bSentStep, hne, hov]
      rw [heq]
      refine bInv_mk maxl text _ _ ?_ ?_
      · intro c hc
        rcases mem_append_one hc with h1 | h2
        · exact hchunks c h1
        · exact h2 ▸ hcc
      · by_cases hbig : maxl < s.length
        · exact Or.inr (Or.inl ⟨s, hs, hbig, rfl⟩)
        · exact Or.inl (by omega)
  · have heq : bSentStep maxl (chunks, cc) s =
        (chunks, cc ++ s ++ [' ']) := by
      simp [bSentStep, hov]
    rw [heq]
    exact bInv_mk maxl text _ _ hchunks (Or.inl (by simp; omega))

theorem bParaStep_inv (maxl : Nat) (text : List Char)
    (chunks : List (List Char)) (cc : List Char) (p : List Char)
    (hst : bInv maxl text (chunks, cc)) (hp : p ∈ splitOn2 '\n' '\n' text) :
    bInv maxl text (bParaStep maxl (chunks, cc) p) := by
  obtain ⟨hchunks, hcc⟩ := hst
  replace hchunks : ∀ c ∈ chunks, bSegOK maxl text c := hchunks
  replace hcc : bSegOK maxl text cc := hcc
  by_cases hov : maxl < cc.length + p.length + 2
  · have hflush : bInv maxl text
        (if cc ≠ [] then (chunks ++ [cc], ([] : List Char)) else (chunks, cc)) := by
      by_cases hne : cc = []
      · simp only [hne, ne_eq, not_true_eq_false, if_false]
        exact bInv_mk maxl text _ _ hchunks (Or.inl (by simp [hne]))
      · rw [if_pos (by simp [hne])]
        refine bInv_mk maxl text _ _ ?_ (Or.inl (by simp))
        intro c hc
        rcases mem_append_one hc with h1 | h2
        · exact hchunks c h1
        · exact h2 ▸ hcc
    by_cases hbig : maxl < p.length
    · have heq : bParaStep maxl (chunks, cc) p =
          (sentsOf p).foldl (bSentStep maxl)
            (if cc ≠ [] then (chunks ++ [cc], ([] : List Char))
              else (chunks, cc)) := by
        simp [bParaStep, hov, hbig]
      rw [heq]
      refine foldl_inv (bSentStep maxl) (bInv maxl text)
        (fun s => bSentProv maxl text s) ?_ _ _ hflush ?_
      · intro st s hsts hqs
        obtain ⟨cl, cb⟩ := st
        exact bSentStep_inv maxl text cl cb s hsts hqs
      · intro s hsmem
        exact ⟨p, hp, hbig, hsmem⟩
    · have heq : bParaStep maxl (chunks, cc) p =
          ((if cc ≠ [] then (chunks ++ [cc], ([] : List Char))
            else (chunks, cc)).1, p) := by
        simp [bParaStep, hov, hbig]
      rw [heq]
      exact bInv_mk maxl text _ _ hflush.1 (Or.inl (by omega))
  · have heq : bParaStep maxl (chunks, cc) p =
        (chunks, (if cc ≠ [] then cc ++ ['\n', '\n'] else cc) ++ p) := by
      simp [bParaStep, hov]
    rw [heq]
    refine bInv_mk maxl text _ _ hchunks (Or.inl ?_)
    by_cases hne : cc = [] <;> simp [hne] <;> omega

/-- Every segment of `split_text` satisfies the amended length bound. -/
theorem split_text_segOK (text : List Char) (maxl : Nat) :
    ∀ c ∈ split_text text maxl, bSegOK maxl text c := by
  unfold split_text
  by_cases hshort : text.length ≤ maxl
  · rw [if_pos hshort]
    intro c hc
    have hce : c = text := by simpa using hc
    subst hce
    exact Or.inl (by omega)
  · rw [if_neg hshort]
    have hfold : bInv maxl text
        ((splitOn2 '\n' '\n' text).foldl (bParaStep maxl) ([], [])) := by
      refine foldl_inv (bParaStep maxl) (bInv maxl text)
        (fun p => p ∈ splitOn2 '\n' '\n' text) ?_ _ _
        (bInv_mk maxl text [] [] (by simp) (Or.inl (by simp))) (fun p hp => hp)
      intro st p hst hq
      obtain ⟨cl, cb⟩ := st
      exact bParaStep_inv maxl text cl cb p hst hq
    obtain ⟨h1, h2⟩ := hfold
    set st := (splitOn2 '\n' '\n' text).foldl (bParaStep maxl) ([], [])
    by_cases hne : st.2 = []
    · simpa [hne] using h1
    · rw [if_pos (by simp [hne])]
      intro c hc
      rcases mem_append_one hc with ha | hb
      · exact h1 c ha
      · exact hb ▸ h2

/-! ### Claim C4: the 5000-character single-word paragraph

Evaluation lemmas for a buffer-empty state and an oversized piece, then the
two functions evaluated at `'a'` repeated 5000 times with limit 4000. -/

/-- The spec scenario 3 input: 5000 characters, no sentence terminators, no
spaces, no paragraph breaks. -/
def longWord : List Char := List.replicate 5000 'a'

theorem tParaStep_eval_empty_big (maxc : Nat) (chunks : List (List Char))
    (p : List Char) (hbig : maxc < p.length) :
    tParaStep maxc (chunks, []) p = (tSentLoop maxc chunks p, []) := by
  unfold tParaStep
  split_ifs with h1 h2 <;> simp_all <;> omega

theorem tSentStep_eval_empty_big (maxc : Nat) (chunks : List (List Char))
    (s : List Char) (hbig : maxc < s.length) :
    tSentStep maxc (chunks, []) s = (chunks ++ [s ++ ['.']], []) := by
  unfold tSentStep
  split_ifs with h1 h2 <;> simp_all <;> omega

theorem bParaStep_eval_empty_big (maxl : Nat) (chunks : List (List Char))
    (p : List Char) (hbig : maxl < p.length) :
    bParaStep maxl (chunks, []) p =
      (sentsOf p).foldl (bSentStep maxl) (chunks, []) := by
  unfold bParaStep
  split_ifs with h1 h2 <;> simp_all <;> omega

theorem bSentStep_eval_empty_big (maxl : Nat) (chunks : List (List Char))
    (s : List Char) (hbig : maxl < s.length) :
    bSentStep maxl (chunks, []) s =
      (splitOnChar ' ' s).foldl (bWordStep maxl) (chunks, []) := by
  unfold bSentStep
  split_ifs with h1 h2 h3 <;> simp_all <;> omega

theorem bWordStep_eval_empty_big (maxl : Nat) (chunks : List (List Char))
    (w : List Char) (hbig : maxl < w.length + 1) :
    bWordStep maxl (chunks, []) w = (chunks ++ [[]], w ++ [' ']) := by
  unfold bWordStep
  split_ifs with h1 <;> simp_all

theorem longWord_all_a : ∀ x ∈ longWord, x = 'a' := fun _ hx =>
  List.eq_of_mem_replicate hx

theorem longWord_length : longWord.length = 5000 := by
  unfold longWord
  exact List.length_replicate 5000 'a'

theorem longWord_paras : splitOn2 '\n' '\n' longWord = [longWord] :=
  splitOn2_of_not_mem '\n' '\n' longWord
    (fun x hx => by rw [longWord_all_a x hx]; decide)

theorem longWord_tSents : splitOn2 '.' ' ' longWord = [longWord] :=
  splitOn2_of_not_mem '.' ' ' longWord
    (fun x hx => by rw [longWord_all_a x hx]; decide)

theorem longWord_bSents : sentsOf longWord = [longWord] := by
  unfold sentsOf
  rw [replace2_of_not_mem '.' ' ' '.' '|' longWord
      (fun x hx => by rw [longWord_all_a x hx]; decide),
    replace2_of_not_mem '!' ' ' '!' '|' longWord
      (fun x hx => by rw [longWord_all_a x hx]; decide),
    replace2_of_not_mem '?' ' ' '?' '|' longWord
      (fun x hx => by rw [longWord_all_a x hx]; decide),
    splitOnChar_of_not_mem '|' longWord
      (fun x hx => by rw [longWord_all_a x hx]; decide)]

theorem longWord_words : splitOnChar ' ' longWord = [longWord] :=
  splitOnChar_of_not_mem ' ' longWord
    (fun x hx => by rw [longWord_all_a x hx]; decide)

theorem longWord_big : 4000 < longWord.length := by
  rw [longWord_length]
  norm_num

/-- `_chunk_text` at the 5000-character single word and limit 4000: one
segment, the word with a `'.'` appended. -/
theorem chunk_text_longWord : chunk_text longWord 4000 = [longWord ++ ['.']] := by
  unfold chunk_text
  rw [if_neg (by rw [longWord_length]; norm_num), longWord_paras]
  rw [List.foldl_cons, List.foldl_nil,
    tParaStep_eval_empty_big 4000 [] longWord longWord_big]
  have hsl : tSentLoop 4000 [] longWord = [longWord ++ ['.']] := by
    unfold tSentLoop
    rw [longWord_tSents, List.foldl_cons, List.foldl_nil,
      tSentStep_eval_empty_big 4000 [] longWord longWord_big]
    simp
  rw [hsl]
  simp

/-- `split_text` at the 5000-character single word and limit 4000: two
segments, an empty one and the word with a trailing space appended. -/
theorem split_text_longWord :
    split_text longWord 4000 = [[], longWord ++ [' ']] := by
  unfold split_text
  rw [if_neg (by rw [longWord_length]; norm_num), longWord_paras]
  rw [List.foldl_cons, List.foldl_nil,
    bParaStep_eval_empty_big 4000 [] longWord longWord_big, longWord_bSents,
    List.foldl_cons, List.foldl_nil,
    bSentStep_eval_empty_big 4000 [] longWord longWord_big, longWord_words,
    List.foldl_cons, List.foldl_nil,
    bWordStep_eval_empty_big 4000 [] longWord (by rw [longWord_length]; norm_num)]
  have hne : longWord ++ [' '] ≠ [] := by simp
  simp [hne]

/-! ### Claim C6: character preservation

`_chunk_text` may add or drop `'.'` characters (sentence-tier flushes) and
whitespace; `split_text` drops `'|'` characters (its sentence split) and may
alter whitespace. Restricted to all other characters, both functions
preserve the text exactly, in order. -/

/-- Characters whose preservation `_chunk_text` guarantees: everything except
spaces, newlines and periods. -/
def keepT (c : Char) : Bool := !(c == ' ' || c == '\n' || c == '.')

/-- Characters whose preservation `split_text` guarantees: everything except
spaces, newlines and pipes. -/
def keepB (c : Char) : Bool := !(c == ' ' || c == '\n' || c == '|')

theorem filter_joinSep (keep : Char → Bool) (sep : List Char)
    (hsep : sep.filter keep = []) (L : List (List Char)) :
    (joinSep sep L).filter keep = (L.map (List.filter keep)).flatten := by
  induction L with
  | nil => simp [joinSep]
  | cons x L2 ih =>
    cases L2 with
    | nil => simp [joinSep]
    | cons y rest =>
      rw [joinSep_cons_cons]
      simp [List.filter_append, hsep, ih]

theorem filter_eq_splitOnChar (keep : Char → Bool) (c : Char)
    (hc : keep c = false) (l : List Char) :
    l.filter keep = ((splitOnChar c l).map (List.filter keep)).flatten := by
  conv_lhs => rw [← joinSep_splitOnChar c l]
  exact filter_joinSep keep [c] (by simp [hc]) _

theorem filter_eq_splitOn2 (keep : Char → Bool) (a b : Char)
    (ha : keep a = false) (hb : keep b = false) (l : List Char) :
    l.filter keep = ((splitOn2 a b l).map (List.filter keep)).flatten := by
  conv_lhs => rw [← joinSep_splitOn2 a b l]
  exact filter_joinSep keep [a, b] (by simp [ha, hb]) _

theorem filter_replace2 (keep : Char → Bool) (a b r2 : Char)
    (hb : keep b = false) (hr2 : keep r2 = false) (l : List Char) :
    (replace2 a b a r2 l).filter keep = l.filter keep := by
  induction l using replace2.induct a b a r2 with
  | case1 => simp [replace2]
  | case2 x => simp [replace2]
  | case3 x y rest hxy ih =>
    obtain ⟨hx, hy⟩ := hxy
    simp only [replace2, if_pos (show x = a ∧ y = b from ⟨hx, hy⟩)]
    simp [List.filter_cons, hb, hr2, ih, hx, hy]
  | case4 x y rest hxy ih =>
    simp only [replace2, if_neg hxy]
    simp [List.filter_cons, ih]

theorem keepT_dot : keepT '.' = false := rfl

theorem keepT_space : keepT ' ' = false := rfl

theorem keepT_nl : keepT '\n' = false := rfl

/-- Characters of the chunks of `_chunk_text`, with spaces, newlines and
periods removed: the state trace function. -/
def traceT (st : List (List Char) × List Char) : List Char :=
  (st.1.flatten ++ st.2).filter keepT

theorem traceT_pair (chunks : List (List Char)) (cc : List Char) :
    traceT (chunks, cc) = (chunks.flatten ++ cc).filter keepT := rfl

theorem tSentStep_trace (maxc : Nat) (chunks : List (List Char))
    (cc s : List Char) :
    traceT (tSentStep maxc (chunks, cc) s) =
      traceT (chunks, cc) ++ s.filter keepT := by
  by_cases hfit : cc.length + s.length + 2 ≤ maxc
  · have heq : tSentStep maxc (chunks, cc) s =
        (chunks, (if cc ≠ [] then cc ++ ['.', ' '] else cc) ++ s) := by
      simp [tSentStep, hfit]
    rw [heq, traceT_pair, traceT_pair]
    by_cases hne : cc = [] <;>
      simp [hne, List.filter_append, List.filter_cons, keepT_dot, keepT_space]
  · by_cases hbig : maxc < s.length
    · by_cases hne : cc = []
      · have hfit2 : ¬(s.length + 2 ≤ maxc) := by
          rw [hne] at hfit
          simpa using hfit
        have heq : tSentStep maxc (chunks, cc) s =
            (chunks ++ [s ++ ['.']], []) := by
          simp [tSentStep, hne, hfit2, hbig]
        rw [heq, traceT_pair, traceT_pair]
        simp [hne, List.filter_append, List.filter_cons, keepT_dot]
      · have heq : tSentStep maxc (chunks, cc) s =
            ((chunks ++ [cc ++ ['.']]) ++ [s ++ ['.']], []) := by
          simp [tSentStep, hfit, hbig, hne]
        rw [heq, traceT_pair, traceT_pair]
        simp [List.filter_append, List.filter_cons, keepT_dot]
    · by_cases hne : cc = []
      · have hfit2 : ¬(s.length + 2 ≤ maxc) := by
          rw [hne] at hfit
          simpa using hfit
        have heq : tSentStep maxc (chunks, cc) s = (chunks, s) := by
          simp [tSentStep, hne, hfit2, hbig]
        rw [heq, traceT_pair, traceT_pair]
        simp [hne, List.filter_append]
      · have heq : tSentStep maxc (chunks, cc) s =
            (chunks ++ [cc ++ ['.']], s) := by
          simp [tSentStep, hfit, hbig, hne]
        rw [heq, traceT_pair, traceT_pair]
        simp [List.filter_append, List.filter_cons, keepT_dot]

theorem flushDotT (st : List (List Char) × List Char) :
    (if st.2 ≠ [] then st.1 ++ [st.2 ++ ['.']] else st.1).flatten.filter
      keepT = traceT st := by
  by_cases hne : st.2 = [] <;>
    simp [traceT, hne, List.filter_append, List.filter_cons, keepT_dot]

theorem flushPlainT (st : List (List Char) × List Char) :
    (if st.2 ≠ [] then st.1 ++ [st.2] else st.1).flatten.filter keepT =
      traceT st := by
  by_cases hne : st.2 = [] <;>
    simp [traceT, hne, List.filter_append]

theorem tSentLoop_trace (maxc : Nat) (chunks : List (List Char))
    (p : List Char) :
    (tSentLoop maxc chunks p).flatten.filter keepT =
      chunks.flatten.filter keepT ++ p.filter keepT := by
  have hfold : traceT ((splitOn2 '.' ' ' p).foldl (tSentStep maxc)
      (chunks, [])) = traceT (chunks, []) ++
        ((splitOn2 '.' ' ' p).map (List.filter keepT)).flatten := by
    refine foldl_trace (tSentStep maxc) traceT (List.filter keepT) ?_ _ _
    intro st s
    obtain ⟨cl, cb⟩ := st
    exact tSentStep_trace maxc cl cb s
  rw [← filter_eq_splitOn2 keepT '.' ' ' (by decide) (by decide) p] at hfold
  simp only [tSentLoop]
  rw [flushDotT, hfold]
  simp [traceT]

theorem tParaStep_trace (maxc : Nat) (chunks : List (List Char))
    (cc p : List Char) :
    traceT (tParaStep maxc (chunks, cc) p) =
      traceT (chunks, cc) ++ p.filter keepT := by
  by_cases hfit : cc.length + p.length + 2 ≤ maxc
  · have heq : tParaStep maxc (chunks, cc) p =
        (chunks, (if cc ≠ [] then cc ++ ['\n', '\n'] else cc) ++ p) := by
      simp [tParaStep, hfit]
    rw [heq, traceT_pair, traceT_pair]
    by_cases hne : cc = [] <;>
      simp [hne, List.filter_append, List.filter_cons, keepT_nl]
  · by_cases hbig : maxc < p.length
    · have heq : tParaStep maxc (chunks, cc) p =
          (tSentLoop maxc (if cc ≠ [] then chunks ++ [cc] else chunks) p,
            []) := by
        simp [tParaStep, hfit, hbig]
      rw [heq, traceT_pair, traceT_pair]
      rw [List.append_nil, tSentLoop_trace]
      by_cases hne : cc = [] <;> simp [hne, List.filter_append]
    · have heq : tParaStep maxc (chunks, cc) p =
          (if cc ≠ [] then chunks ++ [cc] else chunks, p) := by
        simp [tParaStep, hfit, hbig]
      rw [heq, traceT_pair, traceT_pair]
      by_cases hne : cc = [] <;> simp [hne, List.filter_append]

/-- `_chunk_text` preserves every character other than spaces, newlines and
periods, in order. -/
theorem chunk_text_trace (text : List Char) (maxc : Nat) :
    (chunk_text text maxc).flatten.filter keepT = text.filter keepT := by
  simp only [chunk_text]
  by_cases hshort : text.length ≤ maxc
  · rw [if_pos hshort]
    simp
  · rw [if_neg hshort]
    have hfold : traceT ((splitOn2 '\n' '\n' text).foldl (tParaStep maxc)
        ([], [])) = traceT ([], []) ++
          ((splitOn2 '\n' '\n' text).map (List.filter keepT)).flatten := by
      refine foldl_trace (tParaStep maxc) traceT (List.filter keepT) ?_ _ _
      intro st p
      obtain ⟨cl, cb⟩ := st
      exact tParaStep_trace maxc cl cb p
    rw [← filter_eq_splitOn2 keepT '\n' '\n' (by decide) (by decide) text]
      at hfold
    rw [flushPlainT, hfold]
    simp [traceT]

theorem keepB_space : keepB ' ' = false := rfl

theorem keepB_nl : keepB '\n' = false := rfl

theorem keepB_pipe : keepB '|' = false := rfl

/-- Characters of the chunks of `split_text`, with spaces, newlines and pipes
removed: the state trace function. -/
def traceB (st : List (List Char) × List Char) : List Char :=
  (st.1.flatten ++ st.2).filter keepB

theorem traceB_pair (chunks : List (List Char)) (cc : List Char) :
    traceB (chunks, cc) = (chunks.flatten ++ cc).filter keepB := rfl

/-- The sentence decomposition of `split_text` preserves all characters other
than spaces and pipes (the replace step rewrites a space into a pipe and the
split step drops the pipes). -/
theorem filter_eq_sentsOf (p : List Char) :
    p.filter keepB = ((sentsOf p).map (List.filter keepB)).flatten := by
  unfold sentsOf
  rw [← filter_eq_splitOnChar keepB '|' keepB_pipe]
  rw [filter_replace2 keepB '?' ' ' '|' keepB_space keepB_pipe,
    filter_replace2 keepB '!' ' ' '|' keepB_space keepB_pipe,
    filter_replace2 keepB '.' ' ' '|' keepB_space keepB_pipe]

theorem bWordStep_trace (maxl : Nat) (chunks : List (List Char))
    (cc w : List Char) :
    traceB (bWordStep maxl (chunks, cc) w) =
      traceB (chunks, cc) ++ w.filter keepB := by
  by_cases hov : maxl < cc.length + w.length + 1
  · have heq : bWordStep maxl (chunks, cc) w =
        (chunks ++ [cc], w ++ [' ']) := by
      simp [bWordStep, hov]
    rw [heq, traceB_pair, traceB_pair]
    simp [List.filter_append, List.filter_cons, keepB_space]
  · have heq : bWordStep maxl (chunks, cc) w =
        (chunks, cc ++ w ++ [' ']) := by
      simp [bWordStep, hov]
    rw [heq, traceB_pair, traceB_pair]
    simp [List.filter_append, List.filter_cons, keepB_space]

theorem bSentStep_trace (maxl : Nat) (chunks : List (List Char))
    (cc s : List Char) :
    traceB (bSentStep maxl (chunks, cc) s) =
      traceB (chunks, cc) ++ s.filter keepB := by
  by_cases hov : maxl < cc.length + s.length + 1
  · by_cases hne : cc = []
    · by_cases hbig : maxl < s.length
      · have hov2 : maxl < s.length + 1 := by
          rw [hne] at hov
          simpa using hov
        have heq : bSentStep maxl (chunks, cc) s =
            (splitOnChar ' ' s).foldl (bWordStep maxl) (chunks, cc) := by
          simp [bSentStep, hne, hov2, hbig]
        rw [heq]
        have hfold : traceB ((splitOnChar ' ' s).foldl (bWordStep maxl)
            (chunks, cc)) = traceB (chunks, cc) ++
              ((splitOnChar ' ' s).map (List.filter keepB)).flatten := by
          refine foldl_trace (bWordStep maxl) traceB (List.filter keepB) ?_ _ _
          intro st w
          obtain ⟨cl, cb⟩ := st
          exact bWordStep_trace maxl cl cb w
        rw [hfold, ← filter_eq_splitOnChar keepB ' ' keepB_space]
      · have hov2 : maxl < s.length + 1 := by
          rw [hne] at hov
          simpa using hov
        have heq : bSentStep maxl (chunks, cc) s = (chunks ++ [s], cc) := by
          simp [bSentStep, hne, hov2, hbig]
        rw [heq, traceB_pair, traceB_pair]
        simp [hne, List.filter_append]
    · have heq : bSentStep maxl (chunks, cc) s = (chunks ++ [cc], s) := by
        simp [bSentStep, hne, hov]
      rw [heq, traceB_pair, traceB_pair]
      simp [List.filter_append]
  · have heq : bSentStep maxl (chunks, cc) s =
        (chunks, cc ++ s ++ [' ']) := by
      simp [bSentStep, hov]
    rw [heq, traceB_pair, traceB_pair]
    simp [List.filter_append, List.filter_cons, keepB_space]

theorem bParaStep_trace (maxl : Nat) (chunks : List (List Char))
    (cc p : List Char) :
    traceB (bParaStep maxl (chunks, cc) p) =
      traceB (chunks, cc) ++ p.filter keepB := by
  by_cases hov : maxl < cc.length + p.length + 2
  · have hst1 : traceB (if cc ≠ [] then (chunks ++ [cc], ([] : List Char))
        else (chunks, cc)) = traceB (chunks, cc) := by
      by_cases hne : cc = [] <;>
        simp [hne, traceB, List.filter_append]
    by_cases hbig : maxl < p.length
    · have heq : bParaStep maxl (chunks, cc) p =
          (sentsOf p).foldl (bSentStep maxl)
            (if cc ≠ [] then (chunks ++ [cc], ([] : List Char))
              else (chunks, cc)) := by
        simp [bParaStep, hov, hbig]
      rw [heq]
      have hfold : traceB ((sentsOf p).foldl (bSentStep maxl)
          (if cc ≠ [] then (chunks ++ [cc], ([] : List Char))
            else (chunks, cc))) =
          traceB (if cc ≠ [] then (chunks ++ [cc], ([] : List Char))
            else (chunks, cc)) ++
            ((sentsOf p).map (List.filter keepB)).flatten := by
        refine foldl_trace (bSentStep maxl) traceB (List.filter keepB) ?_ _ _
        intro st s
        obtain ⟨cl, cb⟩ := st
        exact bSentStep_trace maxl cl cb s
      rw [hfold, hst1, ← filter_eq_sentsOf]
    · have heq : bParaStep maxl (chunks, cc) p =
          ((if cc ≠ [] then (chunks ++ [cc], ([] : List Char))
            else (chunks, cc)).1, p) := by
        simp [bParaStep, hov, hbig]
      rw [heq]
      by_cases hne : cc = [] <;>
        simp [hne, traceB, List.filter_append]
  · have heq : bParaStep maxl (chunks, cc) p =
        (chunks, (if cc ≠ [] then cc ++ ['\n', '\n'] else cc) ++ p) := by
      simp [bParaStep, hov]
    rw [heq, traceB_pair, traceB_pair]
    by_cases hne : cc = [] <;>
      simp [hne, List.filter_append, List.filter_cons, keepB_nl]

theorem flushPlainB (st : List (List Char) × List Char) :
    (if st.2 ≠ [] then st.1 ++ [st.2] else st.1).flatten.filter keepB =
      traceB st := by
  by_cases hne : st.2 = [] <;>
    simp [traceB, hne, List.filter_append]

/-- `split_text` preserves every character other than spaces, newlines and
pipes, in order. -/
theorem split_text_trace (text : List Char) (maxl : Nat) :
    (split_text text maxl).flatten.filter keepB = text.filter keepB := by
  simp only [split_text]
  by_cases hshort : text.length ≤ maxl
  · rw [if_pos hshort]
    simp
  · rw [if_neg hshort]
    have hfold : traceB ((splitOn2 '\n' '\n' text).foldl (bParaStep maxl)
        ([], [])) = traceB ([], []) ++
          ((splitOn2 '\n' '\n' text).map (List.filter keepB)).flatten := by
      refine foldl_trace (bParaStep maxl) traceB (List.filter keepB) ?_ _ _
      intro st p
      obtain ⟨cl, cb⟩ := st
      exact bParaStep_trace maxl cl cb p
    rw [← filter_eq_splitOn2 keepB '\n' '\n' keepB_nl keepB_nl text] at hfold
    rw [flushPlainB, hfold]
    simp [traceB]

/-! ### Voice selection (openai_tts_tool.py, lines 73-94, 137-140, 185-188)

Python `language.lower()` is modelled by mapping `Char.toLower`; the class
dictionary becomes an association list in declaration order, `dict.get`
becomes first-match lookup with a default. -/

def pyLower (s : List Char) : List Char := s.map Char.toLower

/-- `LANGUAGE_VOICE_MAP` of `OpenAITTSTool` (lines 73-92). -/
def LANGUAGE_VOICE_MAP : List (List Char × List Char) :=
  [("english".data, "alloy".data),
   ("en".data, "alloy".data),
   ("french".data, "nova".data),
   ("fr".data, "nova".data),
   ("german".data, "onyx".data),
   ("de".data, "onyx".data),
   ("spanish".data, "shimmer".data),
   ("es".data, "shimmer".data),
   ("italian".data, "echo".data),
   ("it".data, "echo".data),
   ("japanese".data, "nova".data),
   ("ja".data, "nova".data),
   ("chinese".data, "shimmer".data),
   ("zh".data, "shimmer".data),
   ("portuguese".data, "alloy".data),
   ("pt".data, "alloy".data),
   ("dutch".data, "fable".data),
   ("nl".data, "fable".data)]

/-- Python `dict.get(k, d)` on an association list with distinct keys. -/
def mapGet (m : List (List Char × List Char)) (k d : List Char) : List Char :=
  match m with
  | [] => d
  | (k2, v) :: rest => if k2 = k then v else mapGet rest k d

/-- `OpenAITTSTool._select_voice_for_language` (lines 185-188). -/
def select_voice_for_language (language : List Char) : List Char :=
  mapGet LANGUAGE_VOICE_MAP (pyLower language) "alloy".data

/-- The voice resolution step of `OpenAITTSTool._run` (lines 137-140):
`if not voice: voice = self._select_voice_for_language(language)`. Python
`not voice` is true both for `None` and for the empty string. -/
def resolve_voice (language : List Char) (voice : Option (List Char)) :
    List Char :=
  match voice with
  | none => select_voice_for_language language
  | some v => if v = [] then select_voice_for_language language else v

/-! ### Effect model of `_run` / `_process_chunks` / the script loop

File contents and audio payloads are abstracted away; the environment says
which external calls succeed. Temp files are tracked by chunk index: the
model distinguishes the names recorded in the `temp_files` list from the
files actually on disk, because the two differ in the script (the temp file
is created by `NamedTemporaryFile` before its name is recorded), and the
`finally` cleanup attempts one fallible `os.remove` per recorded name (both
`finally` blocks swallow removal errors, so a failed removal leaves the
file). Exception texts interpolated by `str(e)` are abstracted to fixed
placeholder strings. -/

/-- Outcome flags for the external collaborators: per chunk, the synthesis
API call (`apiOk`), the rest of the per-chunk step — writing the temp file,
and in the tool also the size check and decode (`tempWriteOk`) — and the
`os.remove` of that chunk's temp file (`removeOk`); globally, audio-export
success, directory creation, the single-chunk synthesis call, and the final
file write. -/
structure TtsEnv where
  apiOk : Nat → Bool
  tempWriteOk : Nat → Bool
  removeOk : Nat → Bool
  exportOk : Bool
  makedirsOk : Bool
  singleOk : Bool
  writeOk : Bool

/-- Chunk `i`'s whole per-chunk body succeeds: the synthesis call and the
subsequent write/decode of its temp file. Exactly these chunks contribute
audio to the combined output. -/
def TtsEnv.synthOk (env : TtsEnv) (i : Nat) : Bool :=
  env.apiOk i && env.tempWriteOk i

/-- Observable outcome of `_process_chunks`. -/
structure PCResult where
  calls : List Nat
  audio : List Nat
  tempsCreated : List Nat
  tempsLeft : List Nat
  outputWritten : Bool
  result : List Char

/-- Observable outcome of `_run` and of the podcast tool. -/
structure RunResult where
  result : List Char
  calls : List Nat
  outputWritten : Bool
  tempsLeft : List Nat

def MAX_CHUNK_SIZE : Nat := 4000

def emptyErrMsg : List Char :=
  "Error: Empty text provided. Please provide text content to convert to speech.".data

def audioSavedMsg (outputFile : List Char) : List Char :=
  "Audio saved to ".data ++ outputFile

def genErrMsg (cause : List Char) : List Char :=
  "Error generating audio: ".data ++ cause

def chunkErrMsg (cause : List Char) : List Char :=
  "Error in chunk processing: ".data ++ cause

def exportFailText : List Char := "export failed".data

def makedirsFailText : List Char := "makedirs failed".data

def synthFailText : List Char := "synthesis failed".data

def writeFailText : List Char := "write failed".data

/-- One iteration of the chunk loop of `_process_chunks` (lines 294-334):
the chunk's temp name is appended to `temp_files` before the `try` (lines
296-297), so recorded names coincide with attempted calls; the synthesis
call is attempted for every chunk, and any per-chunk failure is caught,
logged, and the loop continues. The temp file is on disk once the synthesis
call succeeded (`open(temp_file, "wb")` creates it); the write or decode may
still fail without removing it, in which case no audio is added. State:
(attempted calls = recorded names, chunks whose audio was added, temp files
on disk). -/
def pcStep (env : TtsEnv) (st : List Nat × List Nat × List Nat) (i : Nat) :
    List Nat × List Nat × List Nat :=
  if env.apiOk i then
    if env.tempWriteOk i then (st.1 ++ [i], st.2.1 ++ [i], st.2.2 ++ [i])
    else (st.1 ++ [i], st.2.1, st.2.2 ++ [i])
  else (st.1 ++ [i], st.2.1, st.2.2)

/-- The `finally` cleanup (openai_tts_tool.py lines 354-362 and
convert_script_to_audio.py lines 220-226): one removal attempt per RECORDED
temp name; a successful `os.remove` takes the file off the disk, a failing
one is swallowed (logged or `pass`) and leaves it, and a file on disk whose
name was never recorded is not touched at all (erasing an absent name is
the identity, which also absorbs the tool's `os.path.exists` guard). -/
def cleanup_temps (removeOk : Nat → Bool) (recorded disk : List Nat) :
    List Nat :=
  recorded.foldl (fun d t => if removeOk t then d.erase t else d) disk

/-- `OpenAITTSTool._process_chunks` (lines 253-362): chunk the text, loop
over the chunks, export the combined audio of the successful chunks, clean
up temp files on both the success and the exception path. -/
def process_chunks (env : TtsEnv) (text outputFile : List Char) : PCResult :=
  let chunks := chunk_text text MAX_CHUNK_SIZE
  let st := (List.range chunks.length).foldl (pcStep env) ([], [], [])
  if env.exportOk then
    ⟨st.1, st.2.1, st.2.2, cleanup_temps env.removeOk st.1 st.2.2, true,
      audioSavedMsg outputFile⟩
  else
    ⟨st.1, st.2.1, st.2.2, cleanup_temps env.removeOk st.1 st.2.2, false,
      chunkErrMsg exportFailText⟩

/-- Python default-whitespace test used by `str.strip()` (ASCII range). -/
def pyIsWS (c : Char) : Bool :=
  c == ' ' || c == '\t' || c == '\n' || c == '\r' ||
    c == Char.ofNat 11 || c == Char.ofNat 12

/-- Python `not text or not text.strip()`: true iff every character is
whitespace (vacuously for the empty string). -/
def isBlank (s : List Char) : Bool := s.all pyIsWS

/-- `OpenAITTSTool._run` (lines 96-183): blank-input guard, voice
resolution, directory creation, dispatch to `_process_chunks` for texts over
`MAX_CHUNK_SIZE`, otherwise one synthesis call and one file write; every
exception of the body is caught and turned into an error-message string. -/
def tts_run (env : TtsEnv) (text outputFile language : List Char)
    (voice : Option (List Char)) : RunResult :=
  if isBlank text then ⟨emptyErrMsg, [], false, []⟩
  else
    let _v := resolve_voice language voice
    if ¬ env.makedirsOk then ⟨genErrMsg makedirsFailText, [], false, []⟩
    else if MAX_CHUNK_SIZE < text.length then
      let r := process_chunks env text outputFile
      ⟨r.result, r.calls, r.outputWritten, r.tempsLeft⟩
    else if ¬ env.singleOk then ⟨genErrMsg synthFailText, [0], false, []⟩
    else if ¬ env.writeOk then ⟨genErrMsg writeFailText, [0], false, []⟩
    else ⟨audioSavedMsg outputFile, [0], true, []⟩

/-- Environment of the podcast wrapper tool: script-file presence, read
success, script contents, and the inner TTS environment. -/
structure PodEnv where
  tts : TtsEnv
  scriptExists : Bool
  readOk : Bool
  scriptContent : List Char

def scriptNotFoundMsg : List Char := "Script file not found".data

def scriptEmptyMsg : List Char := "Script file is empty".data

def podErrMsg (cause : List Char) : List Char :=
  "Error generating podcast audio: ".data ++ cause

def readFailText : List Char := "read failed".data

def podSuccessMsg (outputFile : List Char) : List Char :=
  "Successfully generated audio file: ".data ++ outputFile

def podFailMsg (outputFile : List Char) : List Char :=
  "Failed to generate audio file: ".data ++ outputFile

/-- `PodcastAudioGeneratorTool._run` (podcast_audio_generator_tool.py,
lines 44-103): existence check, read, blank guard, directory creation,
delegation to the TTS tool (with no explicit voice), then an existence check
on the output file. -/
def podcast_run (env : PodEnv) (outputFile language : List Char) : RunResult :=
  if ¬ env.scriptExists then ⟨scriptNotFoundMsg, [], false, []⟩
  else if ¬ env.readOk then ⟨podErrMsg readFailText, [], false, []⟩
  else if isBlank env.scriptContent then ⟨scriptEmptyMsg, [], false, []⟩
  else if ¬ env.tts.makedirsOk then
    ⟨podErrMsg makedirsFailText, [], false, []⟩
  else
    let r := tts_run env.tts env.scriptContent outputFile language none
    if r.outputWritten then
      ⟨podSuccessMsg outputFile, r.calls, true, r.tempsLeft⟩
    else
      ⟨podFailMsg outputFile, r.calls, false, r.tempsLeft⟩

/-- The chunk loop of `convert_script_to_audio` (bin script, lines 194-207):
synthesis runs strictly in order and the first failing step raises, aborting
the remaining chunks. After a successful synthesis call, the temp file is
created on disk by entering `NamedTemporaryFile(delete=False)` BEFORE its
name is appended to `temp_files` by line 207; the append runs only after
`temp_file.write` succeeds, so a failing write leaves a created file whose
name was never recorded. Returns (attempted calls, recorded names, temp
files on disk, loop completed). -/
def binLoop (env : TtsEnv) : List Nat → List Nat × List Nat × List Nat × Bool
  | [] => ([], [], [], true)
  | i :: rest =>
    if env.apiOk i then
      if env.tempWriteOk i then
        let r := binLoop env rest
        (i :: r.1, i :: r.2.1, i :: r.2.2.1, r.2.2.2)
      else ([i], [], [i], false)
    else ([i], [], [], false)

/-- Observable outcome of the script's multi-chunk path. -/
structure BinResult where
  calls : List Nat
  tempsLeft : List Nat
  outputWritten : Bool
  raised : Bool

/-- The multi-chunk branch of `convert_script_to_audio` (bin script, lines
188-226): loop, stitch, export, with the `finally` block attempting to
remove every RECORDED temp name on both the normal and the exception path
(removal errors are swallowed by `except: pass`, and a file created by a
chunk whose write failed was never recorded, so it is never removed). -/
def bin_convert_multi (env : TtsEnv) (chunks : List (List Char)) : BinResult :=
  let r := binLoop env (List.range chunks.length)
  if r.2.2.2 then
    if env.exportOk then
      ⟨r.1, cleanup_temps env.removeOk r.2.1 r.2.2.1, true, false⟩
    else ⟨r.1, cleanup_temps env.removeOk r.2.1 r.2.2.1, false, true⟩
  else ⟨r.1, cleanup_temps env.removeOk r.2.1 r.2.2.1, false, true⟩

/-! ### Helper lemmas about the effect model -/

theorem pcStep_foldl (env : TtsEnv) (l : List Nat)
    (cs as ts : List Nat) :
    l.foldl (pcStep env) (cs, as, ts) =
      (cs ++ l, as ++ l.filter env.synthOk, ts ++ l.filter env.apiOk) := by
  induction l generalizing cs as ts with
  | nil => simp
  | cons i l2 ih =>
    rw [List.foldl_cons]
    by_cases ha : env.apiOk i
    · by_cases hw : env.tempWriteOk i
      · have hstep : pcStep env (cs, as, ts) i =
            (cs ++ [i], as ++ [i], ts ++ [i]) := by
          simp [pcStep, ha, hw]
        have hs : env.synthOk i = true := by
          simp [TtsEnv.synthOk, ha, hw]
        rw [hstep, ih]
        simp [List.filter_cons, hs, ha]
      · have hstep : pcStep env (cs, as, ts) i =
            (cs ++ [i], as, ts ++ [i]) := by
          simp [pcStep, ha, hw]
        have hs : env.synthOk i = false := by
          simp [TtsEnv.synthOk, hw]
        rw [hstep, ih]
        simp [List.filter_cons, hs, ha]
    · have hstep : pcStep env (cs, as, ts) i = (cs ++ [i], as, ts) := by
        simp [pcStep, ha]
      have hs : env.synthOk i = false := by
        simp [TtsEnv.synthOk, ha]
      rw [hstep, ih]
      simp [List.filter_cons, hs, ha]

/-- The net effect of the `finally` loop: a file on disk survives the
cleanup exactly when its name was never recorded or its removal call fails.
Requires the disk list to be duplicate-free, which holds for all the lists
of chunk indices the model builds. -/
theorem cleanup_temps_eq_filter (ok : Nat → Bool) (recorded disk : List Nat)
    (hd : disk.Nodup) :
    cleanup_temps ok recorded disk =
      disk.filter (fun t => !(decide (t ∈ recorded) && ok t)) := by
  induction recorded generalizing disk with
  | nil => simp [cleanup_temps]
  | cons r rest ih =>
    unfold cleanup_temps at ih ⊢
    rw [List.foldl_cons]
    by_cases hr : ok r
    · rw [if_pos hr, ih (disk.erase r) (hd.erase r),
        hd.erase_eq_filter r, List.filter_filter]
      refine List.filter_congr ?_
      intro t ht
      by_cases htr : t = r
      · subst htr
        simp [hr]
      · simp [htr]
    · rw [if_neg hr, ih disk hd]
      refine List.filter_congr ?_
      intro t ht
      by_cases htr : t = r
      · subst htr
        simp [hr]
      · simp [htr]

/-- Full characterization of the modelled `_process_chunks`: every chunk's
synthesis is attempted regardless of earlier failures, the combined audio
holds exactly the fully successful chunks, a temp file is on disk for every
chunk whose synthesis call succeeded, every such file's name is recorded so
the `finally` attempts its removal, after which exactly the files whose
removal call fails remain, the export writes the output whenever the export
call itself succeeds, and the result message corresponds to the export
outcome only. -/
theorem process_chunks_spec (env : TtsEnv) (text outputFile : List Char) :
    process_chunks env text outputFile =
      ⟨List.range (chunk_text text MAX_CHUNK_SIZE).length,
        (List.range (chunk_text text MAX_CHUNK_SIZE).length).filter
          env.synthOk,
        (List.range (chunk_text text MAX_CHUNK_SIZE).length).filter
          env.apiOk,
        ((List.range (chunk_text text MAX_CHUNK_SIZE).length).filter
          env.apiOk).filter (fun t => !(env.removeOk t)),
        env.exportOk,
        if env.exportOk then audioSavedMsg outputFile
        else chunkErrMsg exportFailText⟩ := by
  have hclean : cleanup_temps env.removeOk
      (List.range (chunk_text text MAX_CHUNK_SIZE).length)
      ((List.range (chunk_text text MAX_CHUNK_SIZE).length).filter
        env.apiOk) =
      ((List.range (chunk_text text MAX_CHUNK_SIZE).length).filter
        env.apiOk).filter (fun t => !(env.removeOk t)) := by
    rw [cleanup_temps_eq_filter env.removeOk _ _
      ((List.nodup_range _).filter env.apiOk)]
    refine List.filter_congr ?_
    intro t ht
    have htr : t ∈ List.range (chunk_text text MAX_CHUNK_SIZE).length :=
      List.mem_of_mem_filter ht
    simp [htr]
  unfold process_chunks
  simp only [pcStep_foldl, List.nil_append]
  by_cases hx : env.exportOk <;> simp [hx, hclean]

theorem isPrefixOf_append_self (p t : List Char) :
    p.isPrefixOf (p ++ t) = true := by
  induction p with
  | nil => simp [List.isPrefixOf]
  | cons x xs ih => simp [List.isPrefixOf, ih]

/-! ### Claim C1 -/

/-- The three-paragraph input of spec scenario 5: paragraphs of 3999
characters, which chunk one-per-segment at limit 4000. -/
def p3999 : List Char := List.replicate 3999 'a'

def threeParas : List Char :=
  p3999 ++ '\n' :: '\n' :: (p3999 ++ '\n' :: '\n' :: p3999)

theorem p3999_length : p3999.length = 3999 := by
  unfold p3999
  exact List.length_replicate 3999 'a'

theorem p3999_ne_nil : p3999 ≠ [] := by
  intro h
  have := p3999_length
  rw [h] at this
  simp at this

theorem p3999_no_nl : ∀ x ∈ p3999, x ≠ '\n' := by
  intro x hx
  unfold p3999 at hx
  rw [List.eq_of_mem_replicate hx]
  decide

theorem threeParas_paras :
    splitOn2 '\n' '\n' threeParas = [p3999, p3999, p3999] := by
  unfold threeParas
  rw [splitOn2_append_sep '\n' '\n' p3999 _ p3999_no_nl,
    splitOn2_append_sep '\n' '\n' p3999 _ p3999_no_nl,
    splitOn2_of_not_mem '\n' '\n' p3999 p3999_no_nl]

theorem threeParas_length : threeParas.length = 12001 := by
  unfold threeParas
  simp [p3999_length]

theorem tParaStep_first : tParaStep 4000 ([], []) p3999 = ([], p3999) := by
  have h1 : ¬(p3999.length + 2 ≤ 4000) := by
    rw [p3999_length]
    norm_num
  have h2 : ¬(4000 < p3999.length) := by
    rw [p3999_length]
    norm_num
  simp [tParaStep, h1, h2]

theorem tParaStep_next (chunks : List (List Char)) :
    tParaStep 4000 (chunks, p3999) p3999 = (chunks ++ [p3999], p3999) := by
  have h1 : ¬(p3999.length + p3999.length + 2 ≤ 4000) := by
    rw [p3999_length]
    norm_num
  have h2 : ¬(4000 < p3999.length) := by
    rw [p3999_length]
    norm_num
  simp [tParaStep, h1, h2, p3999_ne_nil]

/-- `_chunk_text` of the three-paragraph input: one segment per paragraph. -/
theorem chunk_text_threeParas :
    chunk_text threeParas 4000 = [p3999, p3999, p3999] := by
  unfold chunk_text
  rw [if_neg (by rw [threeParas_length]; norm_num), threeParas_paras,
    List.foldl_cons, tParaStep_first, List.foldl_cons, tParaStep_next,
    List.foldl_cons, tParaStep_next, List.foldl_nil]
  simp [p3999_ne_nil]

/-- The environment of spec scenario 5: synthesis of segment 2 of 3 (chunk
index 1) fails, everything else succeeds. -/
def c1Env : TtsEnv :=
  ⟨fun i => i != 1, fun _ => true, fun _ => true, true, true, true, true⟩

def outFile : List Char := "output/podcast.mp3".data

/-- C1 counterexample: with synthesis failing exactly at segment index 1
(segment 2 of 3) and the input that chunks into three segments, the tool
still attempts the synthesis of segment index 2, still writes the output
file, and returns the ordinary success message rather than an error naming
the failed segment — the pipeline is not aborted. -/
theorem c1_counterexample :
    c1Env.synthOk 1 = false ∧
    (process_chunks c1Env threeParas outFile).calls = [0, 1, 2] ∧
    (process_chunks c1Env threeParas outFile).outputWritten = true ∧
    (process_chunks c1Env threeParas outFile).audio = [0, 2] ∧
    (process_chunks c1Env threeParas outFile).result =
      audioSavedMsg outFile := by
  rw [process_chunks_spec,
    show chunk_text threeParas MAX_CHUNK_SIZE = [p3999, p3999, p3999] from
      chunk_text_threeParas]
  refine ⟨rfl, ?_, ?_, ?_, ?_⟩ <;> decide

/-- C1 (corrected): in `_process_chunks` a failing segment does not abort
the pipeline: every chunk's synthesis is attempted in order regardless of
earlier failures, the output file holds exactly the successful chunks'
audio and is written whenever the export call succeeds, and the returned
message depends only on the export outcome — a plain success message with
no mention of the failed segment index or of how many segments succeeded
(only the standalone script's loop aborts at the first failure and writes
no output, and even it propagates the bare exception without naming the
segment). -/
theorem c1_amended_no_abort (env : TtsEnv) (text outputFile : List Char) :
    ((process_chunks env text outputFile).calls =
        List.range (chunk_text text MAX_CHUNK_SIZE).length ∧
      (process_chunks env text outputFile).audio =
        (List.range (chunk_text text MAX_CHUNK_SIZE).length).filter
          env.synthOk ∧
      (process_chunks env text outputFile).outputWritten = env.exportOk ∧
      (process_chunks env text outputFile).result =
        (if env.exportOk then audioSavedMsg outputFile
          else chunkErrMsg exportFailText)) ∧
    ((bin_convert_multi c1Env [p3999, p3999, p3999]).calls = [0, 1] ∧
      (bin_convert_multi c1Env [p3999, p3999, p3999]).outputWritten = false ∧
      (bin_convert_multi c1Env [p3999, p3999, p3999]).raised = true) := by
  constructor
  · rw [process_chunks_spec]
    exact ⟨rfl, rfl, rfl, rfl⟩
  · refine ⟨?_, ?_, ?_⟩ <;> decide

/-! ### Claim C7 -/

/-- Shared helper: `tts_run` leaves no temp files behind when every
`os.remove` call succeeds (the short paths create no temp files at all). -/
theorem tts_run_tempsLeft (env : TtsEnv) (text outputFile language : List Char)
    (voice : Option (List Char)) (hrm : ∀ i, env.removeOk i = true) :
    (tts_run env text outputFile language voice).tempsLeft = [] := by
  unfold tts_run
  by_cases hb : isBlank text
  · simp [hb]
  · by_cases hmk : env.makedirsOk
    · by_cases hlong : MAX_CHUNK_SIZE < text.length
      · simp only [hb, hmk, hlong, process_chunks_spec]
        simp [hrm]
      · by_cases hs : env.singleOk <;> by_cases hw : env.writeOk <;>
          simp [hb, hmk, hlong, hs, hw]
    · simp [hb, hmk]

/-- C7: a blank (empty or whitespace-only) input text is rejected up front:
`OpenAITTSTool._run` returns the empty-input error message and makes no
synthesis call, and `PodcastAudioGeneratorTool._run` with a blank script
file returns the empty-script error message and makes no synthesis call. -/
theorem c7_blank_rejected_no_synthesis (env : TtsEnv)
    (text outputFile language outputFile2 language2 : List Char)
    (voice : Option (List Char)) (penv : PodEnv)
    (h : isBlank text = true) (hex : penv.scriptExists = true)
    (hrd : penv.readOk = true) (hbs : isBlank penv.scriptContent = true) :
    (tts_run env text outputFile language voice).result = emptyErrMsg ∧
    (tts_run env text outputFile language voice).calls = [] ∧
    (podcast_run penv outputFile2 language2).result = scriptEmptyMsg ∧
    (podcast_run penv outputFile2 language2).calls = [] := by
  refine ⟨?_, ?_, ?_, ?_⟩ <;> simp [tts_run, podcast_run, h, hex, hrd, hbs]

def blankText : List Char := "  \n\t".data

def podBlankEnv : PodEnv :=
  ⟨⟨fun _ => true, fun _ => true, fun _ => true, true, true, true, true⟩,
    true, true, blankText⟩

/-- Witness for C7 at a concrete whitespace-only input. -/
theorem c7_blank_rejected_no_synthesis_witness :
    (isBlank blankText = true ∧ podBlankEnv.scriptExists = true ∧
      podBlankEnv.readOk = true ∧ isBlank podBlankEnv.scriptContent = true) ∧
    ((tts_run podBlankEnv.tts blankText outFile [] none).result =
        emptyErrMsg ∧
      (tts_run podBlankEnv.tts blankText outFile [] none).calls = [] ∧
      (podcast_run podBlankEnv outFile []).result = scriptEmptyMsg ∧
      (podcast_run podBlankEnv outFile []).calls = []) :=
  ⟨⟨by decide, by decide, by decide, by decide⟩,
    c7_blank_rejected_no_synthesis podBlankEnv.tts blankText outFile [] outFile
      [] none podBlankEnv (by decide) (by decide) (by decide) (by decide)⟩

/-! ### Claim C8 -/

/-- With every temp write succeeding, the script's loop records exactly the
names of the files it created. -/
theorem binLoop_recorded_eq_disk (env : TtsEnv) (l : List Nat)
    (h : ∀ i ∈ l, env.tempWriteOk i = true) :
    (binLoop env l).2.1 = (binLoop env l).2.2.1 := by
  induction l with
  | nil => rfl
  | cons i rest ih =>
    by_cases ha : env.apiOk i
    · have hw : env.tempWriteOk i = true := h i (by simp)
      have ih2 := ih (fun j hj => h j (by simp [hj]))
      simp [binLoop, ha, hw, ih2]
    · simp [binLoop, ha]

/-- The files the script's loop creates form a sublist of the iterated
indices (so they are duplicate-free for `List.range`). -/
theorem binLoop_disk_sublist (env : TtsEnv) (l : List Nat) :
    List.Sublist (binLoop env l).2.2.1 l := by
  induction l with
  | nil => simp [binLoop]
  | cons i rest ih =>
    by_cases ha : env.apiOk i
    · by_cases hw : env.tempWriteOk i
      · simp only [binLoop, ha, hw, if_true]
        exact ih.cons₂ i
      · simp only [binLoop, ha, hw, if_true, if_false]
        exact (List.nil_sublist rest).cons₂ i
    · simp only [binLoop, ha, if_false]
      exact List.nil_sublist (i :: rest)

/-- The recorded names also form a sublist of the iterated indices. -/
theorem binLoop_recorded_sublist (env : TtsEnv) (l : List Nat) :
    List.Sublist (binLoop env l).2.1 l := by
  induction l with
  | nil => simp [binLoop]
  | cons i rest ih =>
    by_cases ha : env.apiOk i
    · by_cases hw : env.tempWriteOk i
      · simp only [binLoop, ha, hw, if_true]
        exact ih.cons₂ i
      · simp only [binLoop, ha, hw, if_true, if_false]
        exact List.nil_sublist (i :: rest)
    · simp only [binLoop, ha, if_false]
      exact List.nil_sublist (i :: rest)

/-- Environment where chunk 0's temp-file write fails after its synthesis
call succeeded (everything else succeeds). -/
def c8LeakEnv : TtsEnv :=
  ⟨fun _ => true, fun i => i != 0, fun _ => true, true, true, true, true⟩

/-- Environment where the removal of chunk 0's temp file fails (everything
else succeeds). -/
def c8RemoveFailEnv : TtsEnv :=
  ⟨fun _ => true, fun _ => true, fun i => i != 0, true, true, true, true⟩

/-- C8 counterexample: temp files are NOT removed on every exit path. In
`convert_script_to_audio`, when chunk 0's temp write fails after the file
was created, the error propagates (`raised = true`) and the file stays on
disk — its name was never recorded, so the `finally` never attempts its
removal. In `_process_chunks`, a temp file whose `os.remove` call fails
also stays behind (the `finally` swallows removal errors). -/
theorem c8_counterexample :
    (bin_convert_multi c8LeakEnv [spacedText, spacedText]).raised = true ∧
    (bin_convert_multi c8LeakEnv [spacedText, spacedText]).tempsLeft = [0] ∧
    (process_chunks c8RemoveFailEnv threeParas outFile).tempsLeft = [0] := by
  refine ⟨by decide, by decide, ?_⟩
  rw [process_chunks_spec,
    show chunk_text threeParas MAX_CHUNK_SIZE = [p3999, p3999, p3999] from
      chunk_text_threeParas]
  decide

/-- C8 (corrected): both `finally` blocks run on every exit path and attempt
one removal per RECORDED temp name, but removal is not guaranteed. In
`_process_chunks` every created file is recorded (the name is appended
before the `try`), and after the cleanup exactly the created files whose
removal call fails remain — none, whenever every removal succeeds, which
also propagates through `_run` and the podcast wrapper. In the script's
multi-chunk branch a file survives exactly when its name was never recorded
(its write failed after creation) or its removal call fails; when every
temp write and every removal succeeds, no temp file remains there either,
on the success path and on every failure path. -/
theorem c8_amended_cleanup_behavior :
    (∀ (env : TtsEnv) (text outputFile : List Char),
      (process_chunks env text outputFile).tempsLeft =
        ((List.range (chunk_text text MAX_CHUNK_SIZE).length).filter
          env.apiOk).filter (fun t => !(env.removeOk t))) ∧
    (∀ (env : TtsEnv) (text outputFile language : List Char)
      (voice : Option (List Char)), (∀ i, env.removeOk i = true) →
      (tts_run env text outputFile language voice).tempsLeft = []) ∧
    (∀ (env : TtsEnv) (chunks : List (List Char)),
      (bin_convert_multi env chunks).tempsLeft =
        (binLoop env (List.range chunks.length)).2.2.1.filter
          (fun t =>
            !(decide (t ∈ (binLoop env (List.range chunks.length)).2.1) &&
              env.removeOk t))) ∧
    (∀ (env : TtsEnv) (chunks : List (List Char)),
      (∀ i, env.tempWriteOk i = true) → (∀ i, env.removeOk i = true) →
      (bin_convert_multi env chunks).tempsLeft = []) ∧
    (∀ (penv : PodEnv) (outputFile language : List Char),
      (∀ i, penv.tts.removeOk i = true) →
      (podcast_run penv outputFile language).tempsLeft = []) := by
  have hbin : ∀ (env : TtsEnv) (chunks : List (List Char)),
      (bin_convert_multi env chunks).tempsLeft =
        (binLoop env (List.range chunks.length)).2.2.1.filter
          (fun t =>
            !(decide (t ∈ (binLoop env (List.range chunks.length)).2.1) &&
              env.removeOk t)) := by
    intro env chunks
    have hnd : (binLoop env (List.range chunks.length)).2.2.1.Nodup :=
      (List.nodup_range _).sublist (binLoop_disk_sublist env _)
    unfold bin_convert_multi
    by_cases h1 : (binLoop env (List.range chunks.length)).2.2.2 <;>
      by_cases h2 : env.exportOk <;>
      simp [h1, h2, cleanup_temps_eq_filter _ _ _ hnd]
  refine ⟨?_, tts_run_tempsLeft, hbin, ?_, ?_⟩
  · intro env text outputFile
    rw [process_chunks_spec]
  · intro env chunks hwr hrm
    rw [hbin env chunks,
      ← binLoop_recorded_eq_disk env _ (fun i _ => hwr i)]
    refine List.filter_eq_nil_iff.2 ?_
    intro t ht
    simp [ht, hrm t]
  · intro penv outputFile language hrm
    unfold podcast_run
    by_cases he : penv.scriptExists
    · by_cases hr : penv.readOk
      · by_cases hbs : isBlank penv.scriptContent
        · simp [he, hr, hbs]
        · by_cases hmk : penv.tts.makedirsOk
          · have htts := tts_run_tempsLeft penv.tts penv.scriptContent
              outputFile language none hrm
            by_cases hw : (tts_run penv.tts penv.scriptContent outputFile
                language none).outputWritten <;>
              simp [he, hr, hbs, hmk, hw, htts]
          · simp [he, hr, hbs, hmk]
      · simp [he, hr]
    · simp [he]

/-- All-success environment used to exercise the hypotheses of the amended
C8 theorem. -/
def allOkEnv : TtsEnv :=
  ⟨fun _ => true, fun _ => true, fun _ => true, true, true, true, true⟩

/-- Witness for C8 at concrete all-success environments. -/
theorem c8_amended_cleanup_behavior_witness :
    (bin_convert_multi allOkEnv [spacedText, spacedText]).tempsLeft = [] ∧
    (tts_run allOkEnv spacedText outFile [] none).tempsLeft = [] ∧
    (podcast_run podBlankEnv outFile []).tempsLeft = [] :=
  ⟨c8_amended_cleanup_behavior.2.2.2.1 allOkEnv [spacedText, spacedText]
      (fun _ => rfl) (fun _ => rfl),
    c8_amended_cleanup_behavior.2.1 allOkEnv spacedText outFile [] none
      (fun _ => rfl),
    c8_amended_cleanup_behavior.2.2.2.2 podBlankEnv outFile []
      (fun _ => rfl)⟩

/-! ### Claim C9 -/

def frenchLang : List Char := "french".data

def novaVoice : List Char := "nova".data

def alloyVoice : List Char := "alloy".data

def onyxVoice : List Char := "onyx".data

/-- C9 counterexample: an explicitly supplied empty-string voice is
overridden — `_run` tests `if not voice:`, which is also true for `""`, so
the caller's empty voice is replaced by the table's French entry. -/
theorem c9_counterexample :
    resolve_voice frenchLang (some []) = novaVoice ∧
    ([] : List Char) ≠ novaVoice := by
  refine ⟨?_, by decide⟩
  decide

/-- C9 (corrected): with `language="french"` and no voice, the voice
resolves to the table's French entry `"nova"`, which differs from the global
default `"alloy"`; a supplied NON-EMPTY voice is never overridden, but a
supplied empty-string voice is treated like an absent one and resolved from
the table. -/
theorem c9_amended_voice_resolution :
    resolve_voice frenchLang none = novaVoice ∧
    select_voice_for_language frenchLang = novaVoice ∧
    novaVoice ≠ alloyVoice ∧
    resolve_voice frenchLang (some []) = select_voice_for_language frenchLang ∧
    ∀ (language v : List Char), v ≠ [] →
      resolve_voice language (some v) = v := by
  refine ⟨by decide, by decide, by decide, by decide, ?_⟩
  intro language v hv
  simp [resolve_voice, hv]

/-- Witness for C9 at a concrete non-empty supplied voice. -/
theorem c9_amended_voice_resolution_witness :
    onyxVoice ≠ [] ∧ resolve_voice frenchLang (some onyxVoice) = onyxVoice :=
  ⟨by decide,
    c9_amended_voice_resolution.2.2.2.2 frenchLang onyxVoice (by decide)⟩

/-! ### Claim C10 -/

def errTag : List Char := "Error".data

def savedTag : List Char := "Audio saved to ".data

/-- Shared helper: the result string of `tts_run` is always one of the six
modelled messages. -/
theorem tts_run_result_cases (env : TtsEnv)
    (text outputFile language : List Char) (voice : Option (List Char)) :
    (tts_run env text outputFile language voice).result = emptyErrMsg ∨
    (tts_run env text outputFile language voice).result =
      genErrMsg makedirsFailText ∨
    (tts_run env text outputFile language voice).result =
      audioSavedMsg outputFile ∨
    (tts_run env text outputFile language voice).result =
      chunkErrMsg exportFailText ∨
    (tts_run env text outputFile language voice).result =
      genErrMsg synthFailText ∨
    (tts_run env text outputFile language voice).result =
      genErrMsg writeFailText := by
  unfold tts_run
  by_cases hb : isBlank text
  · left
    simp [hb]
  · by_cases hmk : env.makedirsOk
    · by_cases hlong : MAX_CHUNK_SIZE < text.length
      · by_cases hx : env.exportOk
        · right; right; left
          simp [hb, hmk, hlong, process_chunks_spec, hx]
        · right; right; right; left
          simp [hb, hmk, hlong, process_chunks_spec, hx]
      · by_cases hs : env.singleOk
        · by_cases hw : env.writeOk
          · right; right; left
            simp [hb, hmk, hlong, hs, hw]
          · right; right; right; right; right
            simp [hb, hmk, hlong, hs, hw]
        · right; right; right; right; left
          simp [hb, hmk, hlong, hs]
    · right; left
      simp [hb, hmk]

/-- C10: the modelled `_run` is total by construction (it is a Lean
function into `RunResult`), and on every environment and input its result
string is either an error message (prefixed `"Error"`) — covering empty
input, synthesis failure, chunk-processing failure, directory and file
failures — or the success message (prefixed `"Audio saved to "`): no
exception escapes to the caller. -/
theorem c10_run_always_returns_message (env : TtsEnv)
    (text outputFile language : List Char) (voice : Option (List Char)) :
    errTag.isPrefixOf (tts_run env text outputFile language voice).result =
        true ∨
      savedTag.isPrefixOf
        (tts_run env text outputFile language voice).result = true := by
  rcases tts_run_result_cases env text outputFile language voice with
    h | h | h | h | h | h <;> rw [h]
  · left; decide
  · left; decide
  · right
    exact isPrefixOf_append_self savedTag outputFile
  · left; decide
  · left; decide
  · left; decide

/-! ### Claim C5: `_chunk_text` never flushes an empty chunk -/

theorem tSentStep_flushes (maxc : Nat) (st : List (List Char) × List Char)
    (s : List Char) :
    ∃ t, (tSentStep maxc st s).1 = st.1 ++ t ∧ ∀ c ∈ t, c ≠ [] := by
  obtain ⟨chunks, cc⟩ := st
  by_cases hfit : cc.length + s.length + 2 ≤ maxc
  · refine ⟨[], ?_, by simp⟩
    simp [tSentStep, hfit]
  · by_cases hbig : maxc < s.length
    · by_cases hne : cc = []
      · have hfit2 : ¬(s.length + 2 ≤ maxc) := by
          rw [hne] at hfit
          simpa using hfit
        refine ⟨[s ++ ['.']], ?_, by simp⟩
        simp [tSentStep, hne, hfit2, hbig]
      · refine ⟨[cc ++ ['.'], s ++ ['.']], ?_, by simp⟩
        simp [tSentStep, hfit, hbig, hne]
    · by_cases hne : cc = []
      · have hfit2 : ¬(s.length + 2 ≤ maxc) := by
          rw [hne] at hfit
          simpa using hfit
        refine ⟨[], ?_, by simp⟩
        simp [tSentStep, hne, hfit2, hbig]
      · refine ⟨[cc ++ ['.']], ?_, by simp⟩
        simp [tSentStep, hfit, hbig, hne]

theorem tSentLoop_flushes (maxc : Nat) (chunks : List (List Char))
    (p : List Char) :
    ∃ t, tSentLoop maxc chunks p = chunks ++ t ∧ ∀ c ∈ t, c ≠ [] := by
  have hfold : ∃ t, ((splitOn2 '.' ' ' p).foldl (tSentStep maxc)
      (chunks, [])).1 = chunks ++ t ∧ ∀ c ∈ t, c ≠ [] := by
    refine foldl_inv (tSentStep maxc)
      (fun st => ∃ t, st.1 = chunks ++ t ∧ ∀ c ∈ t, c ≠ [])
      (fun _ => True) ?_ _ _ ⟨[], by simp, by simp⟩ (fun _ _ => trivial)
    intro st s hst _
    obtain ⟨t, ht, hts⟩ := hst
    obtain ⟨t2, ht2, ht2s⟩ := tSentStep_flushes maxc st s
    refine ⟨t ++ t2, by rw [ht2, ht, List.append_assoc], ?_⟩
    intro c hc
    rcases List.mem_append.1 hc with h1 | h2
    · exact hts c h1
    · exact ht2s c h2
  obtain ⟨t, ht, hts⟩ := hfold
  unfold tSentLoop
  by_cases hne : ((splitOn2 '.' ' ' p).foldl (tSentStep maxc)
      (chunks, [])).2 = []
  · rw [if_neg (by simp [hne])]
    exact ⟨t, ht, hts⟩
  · rw [if_pos (by simp [hne])]
    refine ⟨t ++ [((splitOn2 '.' ' ' p).foldl (tSentStep maxc)
      (chunks, [])).2 ++ ['.']], by rw [ht, List.append_assoc], ?_⟩
    intro c hc
    rcases List.mem_append.1 hc with h1 | h2
    · exact hts c h1
    · have : c = ((splitOn2 '.' ' ' p).foldl (tSentStep maxc)
          (chunks, [])).2 ++ ['.'] := by simpa using h2
      subst this
      simp

theorem tParaStep_flushes (maxc : Nat) (st : List (List Char) × List Char)
    (p : List Char) :
    ∃ t, (tParaStep maxc st p).1 = st.1 ++ t ∧ ∀ c ∈ t, c ≠ [] := by
  obtain ⟨chunks, cc⟩ := st
  by_cases hfit : cc.length + p.length + 2 ≤ maxc
  · refine ⟨[], ?_, by simp⟩
    simp [tParaStep, hfit]
  · have hc1 : ∃ t1, (if cc ≠ [] then chunks ++ [cc] else chunks) =
        chunks ++ t1 ∧ ∀ c ∈ t1, c ≠ [] := by
      by_cases hne : cc = []
      · exact ⟨[], by simp [hne], by simp⟩
      · exact ⟨[cc], by simp [hne], by simpa using hne⟩
    obtain ⟨t1, ht1, ht1s⟩ := hc1
    by_cases hbig : maxc < p.length
    · have heq : tParaStep maxc (chunks, cc) p =
          (tSentLoop maxc (if cc ≠ [] then chunks ++ [cc] else chunks) p,
            []) := by
        simp [tParaStep, hfit, hbig]
      rw [heq]
      obtain ⟨t2, ht2, ht2s⟩ :=
        tSentLoop_flushes maxc (if cc ≠ [] then chunks ++ [cc] else chunks) p
      refine ⟨t1 ++ t2, ?_, ?_⟩
      · rw [show (tSentLoop maxc
            (if cc ≠ [] then chunks ++ [cc] else chunks) p, ([] : List Char)).1
            = tSentLoop maxc (if cc ≠ [] then chunks ++ [cc] else chunks) p
            from rfl, ht2, ht1, List.append_assoc]
      · intro c hc
        rcases List.mem_append.1 hc with h1 | h2
        · exact ht1s c h1
        · exact ht2s c h2
    · have heq : tParaStep maxc (chunks, cc) p =
          (if cc ≠ [] then chunks ++ [cc] else chunks, p) := by
        simp [tParaStep, hfit, hbig]
      rw [heq]
      exact ⟨t1, ht1, ht1s⟩

/-- `_chunk_text` of a nonempty text never returns an empty segment. -/
theorem chunk_text_no_empty (text : List Char) (maxc : Nat)
    (htext : text ≠ []) : ∀ c ∈ chunk_text text maxc, c ≠ [] := by
  unfold chunk_text
  by_cases hshort : text.length ≤ maxc
  · rw [if_pos hshort]
    intro c hc
    have : c = text := by simpa using hc
    subst this
    exact htext
  · rw [if_neg hshort]
    have hfold : ∀ c ∈ ((splitOn2 '\n' '\n' text).foldl (tParaStep maxc)
        ([], [])).1, c ≠ [] := by
      refine foldl_inv (tParaStep maxc) (fun st => ∀ c ∈ st.1, c ≠ [])
        (fun _ => True) ?_ _ _ (by simp) (fun _ _ => trivial)
      intro st p hst _
      obtain ⟨t, ht, hts⟩ := tParaStep_flushes maxc st p
      rw [ht]
      intro c hc
      rcases List.mem_append.1 hc with h1 | h2
      · exact hst c h1
      · exact hts c h2
    by_cases hne : ((splitOn2 '\n' '\n' text).foldl (tParaStep maxc)
        ([], [])).2 = []
    · rw [if_neg (by simp [hne])]
      exact hfold
    · rw [if_pos (by simp [hne])]
      intro c hc
      rcases List.mem_append.1 hc with h1 | h2
      · exact hfold c h1
      · have : c = ((splitOn2 '\n' '\n' text).foldl (tParaStep maxc)
            ([], [])).2 := by simpa using h2
        subst this
        exact hne

/-! ### Remaining claim theorems -/

def wordChunk : List Char := "aaaaaa ".data

def bChunk : List Char := "b ".data

/-- C3 (corrected): every segment of `_chunk_text` has length at most
`maxLength + 1` (the sentence-tier flush appends a period), except segments
built from a single sentence of an oversized paragraph that is itself longer
than `maxLength`, which are emitted whole with a period appended; every
segment of `split_text` has length at most `maxLength`, except an oversized
sentence emitted verbatim and a word `w` with `len(w) + 1 > maxLength`
emitted as `w` plus a trailing space. Oversized units are never truncated,
but they are not restricted to indivisible words and are not always emitted
byte-identical. -/
theorem c3_amended_oversize_units (text : List Char) (maxLength : Nat)
    (c : List Char) :
    (c ∈ chunk_text text maxLength → tSegOK maxLength text c) ∧
    (c ∈ split_text text maxLength → bSegOK maxLength text c) :=
  ⟨fun h => chunk_text_segOK text maxLength c h,
    fun h => split_text_segOK text maxLength c h⟩

/-- Witness for C3 at concrete oversized segments of both functions. -/
theorem c3_amended_oversize_units_witness :
    (spacedTextChunk ∈ chunk_text spacedText 10 ∧
      tSegOK 10 spacedText spacedTextChunk) ∧
    (wordChunk ∈ split_text wordText 5 ∧ bSegOK 5 wordText wordChunk) :=
  ⟨⟨by decide,
      (c3_amended_oversize_units spacedText 10 spacedTextChunk).1 (by decide)⟩,
    ⟨by decide,
      (c3_amended_oversize_units wordText 5 wordChunk).2 (by decide)⟩⟩

/-- C4 counterexample: at the spec scenario 3 input (5000 characters, no
sentence terminators, no spaces, limit 4000), neither function returns the
single segment equal to those 5000 characters. -/
theorem c4_counterexample :
    chunk_text longWord 4000 ≠ [longWord] ∧
      split_text longWord 4000 ≠ [longWord] := by
  constructor
  · rw [chunk_text_longWord]
    intro h
    have h1 : longWord ++ ['.'] = longWord := by
      injection h
    have h2 := congrArg List.length h1
    simp [longWord_length] at h2
  · rw [split_text_longWord]
    intro h
    simp at h

/-- C4 (corrected): at the 5000-character terminator-free, space-free input
with limit 4000, `_chunk_text` returns exactly one segment equal to the 5000
characters with a `'.'` appended (5001 characters), and `split_text` returns
two segments: an empty one and the 5000 characters with a `' '` appended. -/
theorem c4_amended_oversized_paragraph :
    chunk_text longWord 4000 = [longWord ++ ['.']] ∧
      split_text longWord 4000 = [[], longWord ++ [' ']] :=
  ⟨chunk_text_longWord, split_text_longWord⟩

/-- C5 (corrected): `_chunk_text` of a nonempty text never returns an empty
segment, but `split_text` can (its word-tier flush appends an empty buffer),
and both functions can return zero segments for non-degenerate inputs —
`_chunk_text` when the paragraphs reduce to empty sentences, `split_text`
when the text consists only of paragraph separators. -/
theorem c5_amended_empty_segments :
    (∀ (text : List Char) (maxLength : Nat), text ≠ [] →
      ∀ c ∈ chunk_text text maxLength, c ≠ []) ∧
    chunk_text sepOnlyText 3 = [] ∧
    split_text blankParasText 3 = [] ∧
    split_text wordText 5 = [[], wordChunk, bChunk] :=
  ⟨chunk_text_no_empty, by decide, by decide, by decide⟩

/-- Witness for C5 at a concrete nonempty text and segment. -/
theorem c5_amended_empty_segments_witness :
    (helloText ≠ [] ∧ helloText ∈ chunk_text helloText 4000) ∧
      helloText ≠ [] :=
  ⟨⟨by decide, by decide⟩,
    c5_amended_empty_segments.1 helloText 4000 (by decide) helloText
      (by decide)⟩

/-- C6 (corrected): reassembling the segments does not reproduce the text up
to whitespace only — `_chunk_text` adds and drops period characters and
`split_text` drops pipe characters — but restricted to all characters other
than spaces, newlines and periods (for `_chunk_text`), respectively spaces,
newlines and pipes (for `split_text`), the concatenation of the returned
segments equals the input text exactly and in order, for every input. -/
theorem c6_amended_character_preservation (text : List Char)
    (maxLength : Nat) :
    (chunk_text text maxLength).flatten.filter keepT = text.filter keepT ∧
      (split_text text maxLength).flatten.filter keepB =
        text.filter keepB :=
  ⟨chunk_text_trace text maxLength, split_text_trace text maxLength⟩

end MindSonic
